import Mathlib

/-!
Simplified X-Modem receiver.

Shallow embedding of `X-Modem-2025-RX---easy.cpp`: the control characters, `checksum5`
and the receive loop of `main`.

* A value of type `unsigned char` is a natural number below 256; an `int` is an `Int`.
* The serial line is the list of the values that successive calls of `Serial::read`
  return (`-1` or `0..255`). When the list is used up the next `read` never returns
  (the port is opened with blocking timeouts), which the model reports as a `wait`
  outcome instead of looping.
* The bytes handed to `Serial::write` are collected in order in `written`.
* `nachricht` is the `std::string` of `main`, kept as the list of its byte values.
-/

namespace XModemRx

/-! ## Constants -/

/-- Start Of Header. -/
def SOH : Nat := 0x01
/-- Padding. -/
def ETX : Nat := 0x03
/-- End Of Transmission. -/
def EOT : Nat := 0x04
/-- Acknowledge. -/
def ACK : Nat := 0x06
/-- No Acknowledge. -/
def NAK : Nat := 0x15

/-- Number of data bytes of a block. -/
def DATABYTES : Nat := 5
/-- Size of a block: `SOH`, `n`, `255-n`, the data bytes, the checksum. -/
def BLOCKSIZE : Nat := 3 + DATABYTES + 1

/-- The conversion `(unsigned char)v` of an `int` value. -/
def toUChar (v : Int) : Nat := (v % 256).toNat

/-! ## checksum5 -/

/-- Value of the accumulator `sum` of `checksum5` after the first `k` rounds of its loop
(`sum += d[i]` for `i = 0, .., k-1`), `d` being the bytes the pointer refers to. -/
def checksum5Acc (d : List Nat) (k : Nat) : Int :=
  (List.range k).foldl (fun sum i => sum + (d.getD i 0 : Int)) 0

/-- The function `checksum5`: `(unsigned char)(sum % 256)` after `DATABYTES` rounds. -/
def checksum5 (d : List Nat) : Nat :=
  toUChar (Int.tmod (checksum5Acc d DATABYTES) 256)

/-! ## The receive loop of main -/

/-- The variables of the receive loop together with the two directions of the line. -/
structure RxState where
  /-- The message received so far. -/
  nachricht : List Nat
  /-- The bytes passed to `com.write`, oldest first. -/
  written : List Nat
  /-- The results of the calls of `com.read` still to come. -/
  input : List Int
  deriving DecidableEq, Repr

/-- The call `com.write(value)` for a control character. -/
def comWrite (st : RxState) (value : Nat) : RxState :=
  { st with written := st.written ++ [toUChar (value : Int)] }

/-- The loop `for (int i = 1; i < BLOCKSIZE; ++i) { int bi = com.read(); blk[i] = (unsigned char)bi; }`
with `k` rounds left: `blk` holds the bytes stored so far. The result is `none` when a
`read` finds the line used up. -/
def readBody : Nat → List Nat → List Int → Option (List Nat × List Int)
  | 0, blk, input => some (blk, input)
  | _ + 1, _, [] => none
  | k + 1, blk, bi :: rest => readBody k (blk ++ [toUChar bi]) rest

/-- The loop `for (int i = 0; i < DATABYTES; ++i) { c = blk[3 + i]; if (c != ETX) nachricht.push_back(c); }`. -/
def appendData (blk : List Nat) (nachricht : List Nat) : List Nat :=
  (List.range DATABYTES).foldl
    (fun s i => if blk.getD (3 + i) 0 ≠ ETX then s ++ [blk.getD (3 + i) 0] else s) nachricht

/-- How one pass through the body of `while (true)` ends. -/
inductive Step where
  /-- Left by `break`. -/
  | brk (st : RxState)
  /-- The pass is over (by `continue` or at the end of the body); the loop goes on with
  the `com.read()` of the next pass. -/
  | cont (st : RxState)
  /-- The `com.read()` that fetches the control byte never returns. -/
  | waitControl (st : RxState)
  /-- A `com.read()` inside the block never returns. -/
  | waitBody (st : RxState)
  deriving DecidableEq, Repr

/-- One pass through the body of `while (true)` in `main`. -/
def iteration (st : RxState) : Step :=
  match st.input with
  | [] => Step.waitControl st
  | b0 :: rest =>
    if b0 = (EOT : Int) then
      Step.brk (comWrite { st with input := rest } ACK)
    else if b0 ≠ (SOH : Int) then
      Step.cont { st with input := rest }
    else
      match readBody (BLOCKSIZE - 1) [toUChar b0] rest with
      | none => Step.waitBody { st with input := [] }
      | some (blk, rest1) =>
        if toUChar (255 - (blk.getD 1 0 : Int)) ≠ blk.getD 2 0 then
          Step.cont (comWrite { st with input := rest1 } NAK)
        else if checksum5 (blk.drop 3) ≠ blk.getD 8 0 then
          Step.cont (comWrite { st with input := rest1 } NAK)
        else
          Step.cont (comWrite
            { st with nachricht := appendData blk st.nachricht, input := rest1 } ACK)

/-- How the receive loop ends. -/
inductive Outcome where
  /-- The loop was left by `break`. -/
  | done (st : RxState)
  /-- The loop waits for a control byte that never comes. -/
  | waitControl (st : RxState)
  /-- The loop waits inside a block for a byte that never comes. -/
  | waitBody (st : RxState)
  /-- The bound on the number of passes was too small. -/
  | outOfFuel
  deriving DecidableEq, Repr

/-- The loop `while (true)` run for at most `fuel` passes. -/
def loopFuel : Nat → RxState → Outcome
  | 0, _ => Outcome.outOfFuel
  | fuel + 1, st =>
    match iteration st with
    | Step.brk st1 => Outcome.done st1
    | Step.cont st1 => loopFuel fuel st1
    | Step.waitControl st1 => Outcome.waitControl st1
    | Step.waitBody st1 => Outcome.waitBody st1

/-- The loop `while (true)`: every pass that goes on has consumed a read result, so
one pass more than there are read results is enough (see `rxLoop_ne_outOfFuel`). -/
def rxLoop (st : RxState) : Outcome :=
  loopFuel (st.input.length + 1) st

/-- What can be observed of a run of `main`. -/
structure MainResult where
  /-- The value returned by `main`; `none` when `main` never returns. -/
  exitCode : Option Int
  /-- The bytes passed to `com.write`, oldest first. -/
  written : List Nat
  /-- The message printed after the loop, if that line is reached. -/
  printed : Option (List Nat)
  /-- The read results that were never asked for. -/
  unread : List Int
  deriving DecidableEq, Repr

/-- The function `main` after the port name was entered: `openOk` is the result of
`com.open()`, `stream` the results of the calls of `com.read()`. -/
def main (openOk : Bool) (stream : List Int) : MainResult :=
  if !openOk then
    { exitCode := some 1, written := [], printed := none, unread := stream }
  else
    match rxLoop (comWrite { nachricht := [], written := [], input := stream } NAK) with
    | Outcome.done st =>
      { exitCode := some 0, written := st.written, printed := some st.nachricht,
        unread := st.input }
    | Outcome.waitControl st =>
      { exitCode := none, written := st.written, printed := none, unread := st.input }
    | Outcome.waitBody st =>
      { exitCode := none, written := st.written, printed := none, unread := st.input }
    | Outcome.outOfFuel =>
      { exitCode := none, written := [], printed := none, unread := [] }

/-! ## The sender side of the round trip, as the specification words it -/

/-- Split a payload into 5-byte chunks, the last one padded with `ETX` to 5 bytes. -/
def chunks5 : List Nat → List (List Nat)
  | [] => []
  | [a] => [[a, ETX, ETX, ETX, ETX]]
  | [a, b] => [[a, b, ETX, ETX, ETX]]
  | [a, b, c] => [[a, b, c, ETX, ETX]]
  | [a, b, c, d] => [[a, b, c, d, ETX]]
  | a :: b :: c :: d :: e :: tl => [a, b, c, d, e] :: chunks5 tl

/-- The frame of a chunk with sequence byte `n`:
`[0x01, n, 255-n, chunk, (sum of chunk) mod 256]`. -/
def frame (n : Nat) (chunk : List Nat) : List Nat :=
  [0x01, n, 255 - n] ++ chunk ++ [chunk.sum % 256]

/-- The frames of the chunks one after the other, chunk number `i + j` carrying the
sequence byte `seq (i + j)`. -/
def framesFrom (seq : Nat → Nat) : Nat → List (List Nat) → List Nat
  | _, [] => []
  | i, c :: cs => frame (seq i) c ++ framesFrom seq (i + 1) cs

/-- What `Serial::read` returns, call by call, when the payload `p` is sent: the frames
of its chunks followed by `EOT` (0x04), every byte arriving as a successful read. -/
def senderStream (seq : Nat → Nat) (p : List Nat) : List Int :=
  (framesFrom seq 0 (chunks5 p) ++ [0x04]).map Int.ofNat

/-! ## The reference reading of a stream, as the specification words it -/

/-- The blocks of a stream in arrival order: at a control position `EOT` (0x04) ends the
session, `SOH` (0x01) starts a block made of it and the next 8 bytes, anything else is
noise and skipped. A block cut short by the end of the stream is not a 9-byte block. -/
def blocksOf : List Int → List (List Int)
  | [] => []
  | b :: rest =>
    if b = 0x04 then []
    else if b = 0x01 then
      match rest with
      | b1 :: b2 :: b3 :: b4 :: b5 :: b6 :: b7 :: b8 :: rest1 =>
        [b, b1, b2, b3, b4, b5, b6, b7, b8] :: blocksOf rest1
      | _ => []
    else blocksOf rest

/-- Complement check of the specification: byte 2 equals 255 minus byte 1. -/
def complementOk (blk : List Int) : Bool :=
  blk.getD 2 0 == 255 - blk.getD 1 0

/-- Checksum check of the specification: byte 8 equals the sum of bytes 3..7 modulo 256. -/
def checksumOk (blk : List Int) : Bool :=
  blk.getD 8 0 == (blk.getD 3 0 + blk.getD 4 0 + blk.getD 5 0 + blk.getD 6 0 + blk.getD 7 0) % 256

/-- A block is valid iff complement check and checksum check both pass. -/
def blockValid (blk : List Int) : Bool :=
  complementOk blk && checksumOk blk

/-- The payload of a block (offsets 3..7) with every 0x03 byte removed. -/
def strippedPayload (blk : List Int) : List Nat :=
  (((blk.drop 3).take 5).filter (fun c => c ≠ 0x03)).map Int.toNat

/-- The reference message: the stripped payloads of the valid blocks in arrival order. -/
def refMessage (stream : List Int) : List Nat :=
  ((blocksOf stream).filter blockValid).flatMap strippedPayload

/-! ## What one pass of the loop does with a block, in closed form -/

/-- The array `blk` of `main` after nine read results were stored. -/
def stored (blk : List Int) : List Nat := blk.map toUChar

/-- Whether `main` passes both of its tests on nine read results. -/
def accepted (blk : List Int) : Bool :=
  toUChar (255 - ((stored blk).getD 1 0 : Int)) == (stored blk).getD 2 0 &&
    checksum5 ((stored blk).drop 3) == (stored blk).getD 8 0

/-- The byte `main` writes after nine read results. -/
def answer (blk : List Int) : Nat := if accepted blk then ACK else NAK

/-- The bytes `main` appends to `nachricht` after nine read results. -/
def delivered (blk : List Int) : List Nat :=
  if accepted blk then (((stored blk).drop 3).take DATABYTES).filter (fun c => c ≠ ETX) else []

/-! ## The points of the loop -/

/-- The variables with which a pass ends. -/
def Step.state : Step → RxState
  | Step.brk st => st
  | Step.cont st => st
  | Step.waitControl st => st
  | Step.waitBody st => st

/-- The variables after `k` passes of `while (true)`; once the loop was left or waits for
a byte they stay as they are. -/
def passes : Nat → RxState → RxState
  | 0, st => st
  | k + 1, st =>
    match iteration st with
    | Step.cont st1 => passes k st1
    | Step.brk st1 => st1
    | Step.waitControl st1 => st1
    | Step.waitBody st1 => st1

/-- The string `nachricht` after the first `k` rounds of the loop that takes over the
data of `blk`; `appendData` is the value after `DATABYTES` rounds. -/
def appendDataAcc (blk : List Nat) (nachricht : List Nat) (k : Nat) : List Nat :=
  (List.range k).foldl
    (fun s i => if blk.getD (3 + i) 0 ≠ ETX then s ++ [blk.getD (3 + i) 0] else s) nachricht

/-! ## Serial::read and Serial::readLine -/

/-- What the call `ReadFile(handle, &chRead, 1, &dwRead, nullptr)` of the operating system
leaves behind. -/
structure ReadFileOutcome where
  /-- The value returned by `ReadFile`. -/
  success : Bool
  /-- The number of bytes delivered, `dwRead`. -/
  dwRead : Nat
  /-- The content of the `unsigned char chRead` after the call. -/
  chRead : Nat
  deriving DecidableEq, Repr

/-- The function `int Serial::read()`: `handleValid` says whether `handle` differs from
`INVALID_HANDLE_VALUE`, `os` is what `ReadFile` does when it is called. -/
def Serial.read (handleValid : Bool) (os : ReadFileOutcome) : Int :=
  if !handleValid then -1
  else if !os.success then -1
  else if os.dwRead ≠ 1 then -1
  else (os.chRead : Int)

/-- Linefeed. -/
def LF : Nat := 0x0A

/-- The bound `1 << 20` of `Serial::readLine`. -/
def lineLimit : Nat := 1 <<< 20

/-- The loop `while (true)` of `Serial::readLine`: `stream` holds the results of the
calls of `read()` still to come, `result` the string so far. The value is the returned
string with the read results left over, or `none` when a `read()` never returns. -/
def readLineLoop : List Int → List Nat → Option (List Nat × List Int)
  | [], _ => none
  | ch :: rest, result =>
    if ch < 0 then some (result, rest)
    else if toUChar ch = LF then some (result, rest)
    else if (result ++ [toUChar ch]).length > lineLimit then
      some (result ++ [toUChar ch], rest)
    else readLineLoop rest (result ++ [toUChar ch])

/-- The function `string Serial::readLine()`. -/
def Serial.readLine (handleValid : Bool) (stream : List Int) : Option (List Nat × List Int) :=
  if !handleValid then some ([], stream)
  else readLineLoop stream []

/-! ## Basic facts about the embedding -/

theorem toUChar_natCast (n : Nat) : toUChar (n : Int) = n % 256 := by
  unfold toUChar
  omega

theorem toUChar_of_lt {n : Nat} (h : n < 256) : toUChar (n : Int) = n := by
  rw [toUChar_natCast]
  exact Nat.mod_eq_of_lt h

theorem toUChar_lt (v : Int) : toUChar v < 256 := by
  unfold toUChar
  omega

theorem toUChar_sub_of_lt {n : Nat} (h : n < 256) : toUChar (255 - (n : Int)) = 255 - n := by
  unfold toUChar
  omega

theorem checksum5Acc_five (d0 d1 d2 d3 d4 : Nat) (tl : List Nat) :
    checksum5Acc (d0 :: d1 :: d2 :: d3 :: d4 :: tl) DATABYTES
      = ((d0 + d1 + d2 + d3 + d4 : Nat) : Int) := by
  have hr : List.range DATABYTES = [0, 1, 2, 3, 4] := by decide
  simp [checksum5Acc, hr]

theorem checksum5_five (d0 d1 d2 d3 d4 : Nat) (tl : List Nat) :
    checksum5 (d0 :: d1 :: d2 :: d3 :: d4 :: tl) = (d0 + d1 + d2 + d3 + d4) % 256 := by
  unfold checksum5
  rw [checksum5Acc_five]
  have h : Int.tmod ((d0 + d1 + d2 + d3 + d4 : Nat) : Int) 256
      = (((d0 + d1 + d2 + d3 + d4) % 256 : Nat) : Int) := by
    rw [Int.ofNat_tmod]
    rfl
  rw [h, toUChar_natCast]
  exact Nat.mod_mod _ _

theorem appendData_eq (a0 a1 a2 d0 d1 d2 d3 d4 : Nat) (tl m : List Nat) :
    appendData (a0 :: a1 :: a2 :: d0 :: d1 :: d2 :: d3 :: d4 :: tl) m
      = m ++ [d0, d1, d2, d3, d4].filter (fun c => c ≠ ETX) := by
  have hr : List.range DATABYTES = [0, 1, 2, 3, 4] := by decide
  simp only [appendData, hr, List.foldl_cons, List.foldl_nil]
  by_cases h0 : d0 = ETX <;> by_cases h1 : d1 = ETX <;> by_cases h2 : d2 = ETX <;>
    by_cases h3 : d3 = ETX <;> by_cases h4 : d4 = ETX <;>
    simp [h0, h1, h2, h3, h4, List.filter]

theorem readBody_eight (b0 : Nat) (b1 b2 b3 b4 b5 b6 b7 b8 : Int) (rest : List Int) :
    readBody (BLOCKSIZE - 1) [b0] (b1 :: b2 :: b3 :: b4 :: b5 :: b6 :: b7 :: b8 :: rest)
      = some ([b0, toUChar b1, toUChar b2, toUChar b3, toUChar b4, toUChar b5, toUChar b6,
          toUChar b7, toUChar b8], rest) := by
  have hb : BLOCKSIZE - 1 = 8 := by decide
  simp [hb, readBody]

/-- One pass of the loop that starts with `SOH` and finds eight more read results. -/
theorem iteration_soh (m w : List Nat) (b1 b2 b3 b4 b5 b6 b7 b8 : Int) (rest : List Int) :
    iteration ⟨m, w, 1 :: b1 :: b2 :: b3 :: b4 :: b5 :: b6 :: b7 :: b8 :: rest⟩
      = if toUChar (255 - (toUChar b1 : Int)) ≠ toUChar b2 then
          Step.cont ⟨m, w ++ [NAK], rest⟩
        else if (toUChar b3 + toUChar b4 + toUChar b5 + toUChar b6 + toUChar b7) % 256
            ≠ toUChar b8 then
          Step.cont ⟨m, w ++ [NAK], rest⟩
        else
          Step.cont ⟨m ++ [toUChar b3, toUChar b4, toUChar b5, toUChar b6, toUChar b7].filter
            (fun c => c ≠ ETX), w ++ [ACK], rest⟩ := by
  have hE : ((1 : Int) = (EOT : Int)) = False := by decide
  have hS : ((1 : Int) ≠ (SOH : Int)) = False := by decide
  have hA : toUChar (ACK : Int) = ACK := by decide
  have hN : toUChar (NAK : Int) = NAK := by decide
  simp only [iteration, hE, hS, if_false, readBody_eight, List.getD_cons_succ,
    List.getD_cons_zero, List.drop_succ_cons, List.drop_zero, checksum5_five, appendData_eq,
    comWrite, hA, hN]


/-! ## The loop needs no more passes than there are read results -/

theorem readBody_length (k : Nat) : ∀ (blk : List Nat) (inp : List Int) (blk1 : List Nat)
    (rest : List Int), readBody k blk inp = some (blk1, rest) → rest.length + k = inp.length := by
  induction k with
  | zero =>
    intro blk inp blk1 rest h
    simp only [readBody, Option.some.injEq, Prod.mk.injEq] at h
    simp [h.2]
  | succ k ih =>
    intro blk inp blk1 rest h
    cases inp with
    | nil => simp [readBody] at h
    | cons bi tl =>
      simp only [readBody] at h
      have := ih _ _ _ _ h
      simp only [List.length_cons]
      omega

theorem iteration_cont_length (st st1 : RxState) (h : iteration st = Step.cont st1) :
    st1.input.length < st.input.length := by
  obtain ⟨m, w, inp⟩ := st
  cases inp with
  | nil => simp [iteration] at h
  | cons b0 rest =>
    simp only [iteration] at h
    split at h
    · simp at h
    · split at h
      · simp only [Step.cont.injEq] at h
        subst h
        simp
      · split at h
        · simp at h
        · rename_i blk rest1 hrb
          have hl := readBody_length _ _ _ _ _ hrb
          have hb : BLOCKSIZE - 1 = 8 := by decide
          split at h
          · simp only [Step.cont.injEq] at h
            subst h
            simp only [comWrite, List.length_cons]
            omega
          · split at h
            · simp only [Step.cont.injEq] at h
              subst h
              simp only [comWrite, List.length_cons]
              omega
            · simp only [Step.cont.injEq] at h
              subst h
              simp only [comWrite, List.length_cons]
              omega

theorem loopFuel_enough : ∀ (fuel : Nat) (st : RxState), st.input.length < fuel →
    loopFuel fuel st ≠ Outcome.outOfFuel := by
  intro fuel
  induction fuel with
  | zero => intro st h; omega
  | succ fuel ih =>
    intro st h
    simp only [loopFuel]
    cases hi : iteration st with
    | brk st1 => simp
    | cont st1 =>
      have := iteration_cont_length st st1 hi
      exact ih st1 (by omega)
    | waitControl st1 => simp
    | waitBody st1 => simp

theorem loopFuel_stable : ∀ (fuel : Nat) (st : RxState), st.input.length < fuel →
    loopFuel (fuel + 1) st = loopFuel fuel st := by
  intro fuel
  induction fuel with
  | zero => intro st h; omega
  | succ fuel ih =>
    intro st h
    rw [loopFuel]
    conv => rhs; rw [loopFuel]
    cases hi : iteration st with
    | brk st1 => rfl
    | cont st1 =>
      have := iteration_cont_length st st1 hi
      exact ih st1 (by omega)
    | waitControl st1 => rfl
    | waitBody st1 => rfl

theorem loopFuel_eq_rxLoop (st : RxState) : ∀ (k : Nat),
    loopFuel (st.input.length + 1 + k) st = rxLoop st := by
  intro k
  induction k with
  | zero => rfl
  | succ k ih =>
    rw [← ih]
    exact loopFuel_stable (st.input.length + 1 + k) st (by omega)

/-- The loop never stops for lack of passes: it is left by `break` or it waits for a byte. -/
theorem rxLoop_ne_outOfFuel (st : RxState) : rxLoop st ≠ Outcome.outOfFuel :=
  loopFuel_enough _ st (Nat.lt_succ_self _)

/-- The loop equation of `while (true)`. -/
theorem rxLoop_unfold (st : RxState) :
    rxLoop st = match iteration st with
      | Step.brk st1 => Outcome.done st1
      | Step.cont st1 => rxLoop st1
      | Step.waitControl st1 => Outcome.waitControl st1
      | Step.waitBody st1 => Outcome.waitBody st1 := by
  conv => lhs; rw [rxLoop, loopFuel]
  cases hi : iteration st with
  | brk st1 => rfl
  | cont st1 =>
    have hlt := iteration_cont_length st st1 hi
    obtain ⟨k, hk⟩ : ∃ k, st.input.length = st1.input.length + 1 + k :=
      ⟨st.input.length - st1.input.length - 1, by omega⟩
    simp only [hk]
    exact loopFuel_eq_rxLoop st1 k
  | waitControl st1 => rfl
  | waitBody st1 => rfl

theorem rxLoop_brk {st st1 : RxState} (h : iteration st = Step.brk st1) :
    rxLoop st = Outcome.done st1 := by
  rw [rxLoop_unfold, h]

theorem rxLoop_cont {st st1 : RxState} (h : iteration st = Step.cont st1) :
    rxLoop st = rxLoop st1 := by
  rw [rxLoop_unfold, h]

/-! ## Single passes of the loop -/

/-- C3 (acceptance step): nine read results `[0x01, n, c, d0..d4, k]` of bytes, met while the
receiver awaits a control byte with message `m`, with `c = 255 - n` and
`k = (d0+d1+d2+d3+d4) mod 256`, make the receiver write exactly one byte, `ACK`, extend the
message to `m` followed by those of `d0..d4` that differ from 0x03, and await the next
control byte with the rest of the line untouched. -/
theorem acceptance_step (m w : List Nat) (rest : List Int) (n c d0 d1 d2 d3 d4 k : Nat)
    (hn : n < 256) (h0 : d0 < 256) (h1 : d1 < 256) (h2 : d2 < 256) (h3 : d3 < 256)
    (h4 : d4 < 256) (hc : c = 255 - n) (hk : k = (d0 + d1 + d2 + d3 + d4) % 256) :
    iteration ⟨m, w, [0x01, (n : Int), c, d0, d1, d2, d3, d4, k] ++ rest⟩
      = Step.cont ⟨m ++ [d0, d1, d2, d3, d4].filter (fun x => x ≠ 0x03), w ++ [ACK], rest⟩ := by
  have hk8 : k < 256 := by omega
  have hc8 : c < 256 := by omega
  have hcc : toUChar (255 - (n : Int)) = c := by rw [toUChar_sub_of_lt hn, hc]
  simp only [List.cons_append, List.nil_append]
  rw [iteration_soh]
  simp only [toUChar_of_lt hn, toUChar_of_lt h0, toUChar_of_lt h1, toUChar_of_lt h2,
    toUChar_of_lt h3, toUChar_of_lt h4, toUChar_of_lt hk8, toUChar_of_lt hc8, hcc, ← hk]
  simp [ETX]

theorem acceptance_step_witness :
    iteration ⟨[71], [0x15], [0x01, ((5 : Nat) : Int), (250 : Nat), (0x48 : Nat), (0x49 : Nat),
        (3 : Nat), (3 : Nat), (3 : Nat), (0x9A : Nat)] ++ [0x04]⟩
      = Step.cont ⟨[71] ++ [0x48, 0x49, 3, 3, 3].filter (fun x => x ≠ 0x03), [0x15] ++ [ACK],
          [0x04]⟩ :=
  acceptance_step [71] [0x15] [0x04] 5 250 0x48 0x49 3 3 3 0x9A (by decide) (by decide)
    (by decide) (by decide) (by decide) (by decide) (by decide) (by decide)

/-- C4 (checksum rejection): a block `[0x01, n, 255-n, d0..d4, k1]` whose last byte `k1`
differs from the correct checksum `(d0+d1+d2+d3+d4) mod 256`, met while the receiver awaits
a control byte, makes the receiver write exactly one byte, `NAK`, leave the message as it
is and await the next control byte. -/
theorem checksum_rejection (m w : List Nat) (rest : List Int) (n d0 d1 d2 d3 d4 k1 : Nat)
    (hn : n < 256) (h0 : d0 < 256) (h1 : d1 < 256) (h2 : d2 < 256) (h3 : d3 < 256)
    (h4 : d4 < 256) (hk1 : k1 < 256) (hne : k1 ≠ (d0 + d1 + d2 + d3 + d4) % 256) :
    iteration ⟨m, w, [0x01, (n : Int), ((255 - n : Nat) : Int), d0, d1, d2, d3, d4, k1] ++ rest⟩
      = Step.cont ⟨m, w ++ [NAK], rest⟩ := by
  have hc8 : 255 - n < 256 := by omega
  simp only [List.cons_append, List.nil_append]
  rw [iteration_soh]
  simp only [toUChar_of_lt hn, toUChar_of_lt h0, toUChar_of_lt h1, toUChar_of_lt h2,
    toUChar_of_lt h3, toUChar_of_lt h4, toUChar_of_lt hk1, toUChar_of_lt hc8,
    toUChar_sub_of_lt hn]
  simp [Ne.symm hne]

theorem checksum_rejection_witness :
    iteration ⟨[71], [0x15], [0x01, ((5 : Nat) : Int), ((255 - 5 : Nat) : Int), (0x48 : Nat),
        (0x49 : Nat), (3 : Nat), (3 : Nat), (3 : Nat), (0x9B : Nat)] ++ [0x04]⟩
      = Step.cont ⟨[71], [0x15] ++ [NAK], [0x04]⟩ :=
  checksum_rejection [71] [0x15] [0x04] 5 0x48 0x49 3 3 3 0x9B (by decide) (by decide)
    (by decide) (by decide) (by decide) (by decide) (by decide) (by decide)

/-- C5 (complement rejection): a valid block with sequence byte `n` whose byte 2 is
replaced by a byte `c1` different from `255 - n`, met while the receiver awaits a control
byte, makes the receiver write exactly one byte, `NAK`, append none of the payload and
await the next control byte. -/
theorem complement_rejection (m w : List Nat) (rest : List Int) (n c1 d0 d1 d2 d3 d4 : Nat)
    (hn : n < 256) (hc1 : c1 < 256) (hne : c1 ≠ 255 - n) :
    iteration ⟨m, w, [0x01, (n : Int), c1, d0, d1, d2, d3, d4,
        (((d0 + d1 + d2 + d3 + d4) % 256 : Nat) : Int)] ++ rest⟩
      = Step.cont ⟨m, w ++ [NAK], rest⟩ := by
  simp only [List.cons_append, List.nil_append]
  rw [iteration_soh]
  simp only [toUChar_of_lt hn, toUChar_of_lt hc1, toUChar_sub_of_lt hn]
  simp [Ne.symm hne]

theorem complement_rejection_witness :
    iteration ⟨[71], [0x15], [0x01, ((5 : Nat) : Int), (251 : Nat), (0x48 : Nat), (0x49 : Nat),
        (3 : Nat), (3 : Nat), (3 : Nat),
        (((0x48 + 0x49 + 3 + 3 + 3) % 256 : Nat) : Int)] ++ [0x04]⟩
      = Step.cont ⟨[71], [0x15] ++ [NAK], [0x04]⟩ :=
  complement_rejection [71] [0x15] [0x04] 5 251 0x48 0x49 3 3 3 (by decide) (by decide)
    (by decide)

/-- C8 (noise tolerance): a read result `b` other than `SOH` (0x01) and `EOT` (0x04), in
particular every such byte, met while the receiver awaits a control byte, is consumed
alone: nothing is written, the message is unchanged, the rest of the line is untouched
and the receiver awaits the next control byte. -/
theorem noise_tolerance (m w : List Nat) (rest : List Int) (b : Int)
    (hs : b ≠ 0x01) (he : b ≠ 0x04) :
    iteration ⟨m, w, b :: rest⟩ = Step.cont ⟨m, w, rest⟩ := by
  have hE : ¬ b = (EOT : Int) := he
  have hS : b ≠ (SOH : Int) := hs
  simp [iteration, hE, hS]

theorem noise_tolerance_witness :
    iteration ⟨[71], [0x15], 0x41 :: [0x01, 0x04]⟩ = Step.cont ⟨[71], [0x15], [0x01, 0x04]⟩ :=
  noise_tolerance [71] [0x15] [0x01, 0x04] 0x41 (by decide) (by decide)

/-- C10 (concrete scenario): the block `01 05 FA 48 49 03 03 03 9A` passes both checks
(`250 = 255 - 5`, `0x9A = (72+73+3+3+3) mod 256`), so whatever the message `m` so far the
receiver appends exactly `H`, `I` and writes `ACK` (0x06); the following `04` causes one more
0x06 and the end of the loop; run from the start of `main`, the printed message is "HI". -/
theorem concrete_scenario :
    toUChar (255 - 5) = 0xFA ∧ checksum5 [0x48, 0x49, 0x03, 0x03, 0x03] = 0x9A ∧
    (∀ m w : List Nat, ∀ rest : List Int,
      iteration ⟨m, w, [0x01, 0x05, 0xFA, 0x48, 0x49, 0x03, 0x03, 0x03, 0x9A] ++ rest⟩
        = Step.cont ⟨m ++ [0x48, 0x49], w ++ [0x06], rest⟩) ∧
    (∀ m w : List Nat, ∀ rest : List Int,
      iteration ⟨m, w, 0x04 :: rest⟩ = Step.brk ⟨m, w ++ [0x06], rest⟩) ∧
    main true [0x01, 0x05, 0xFA, 0x48, 0x49, 0x03, 0x03, 0x03, 0x9A, 0x04]
      = { exitCode := some 0, written := [0x15, 0x06, 0x06], printed := some [0x48, 0x49],
          unread := [] } := by
  refine ⟨by decide, by decide, ?_, ?_, by decide⟩
  · intro m w rest
    simp only [List.cons_append, List.nil_append]
    rw [iteration_soh]
    have e1 : toUChar 0x05 = 5 := by decide
    have e2 : toUChar 0xFA = 250 := by decide
    have e3 : toUChar 0x48 = 72 := by decide
    have e4 : toUChar 0x49 = 73 := by decide
    have e5 : toUChar 0x03 = 3 := by decide
    have e6 : toUChar 0x9A = 154 := by decide
    have e7 : toUChar (255 - ((5 : Nat) : Int)) = 250 := by decide
    simp only [e1, e2, e3, e4, e5, e6, e7]
    simp [ETX, ACK]
  · intro m w rest
    simp [iteration, EOT, comWrite, ACK, toUChar]

/-! ## More input after a pass -/

theorem readBody_append (k : Nat) : ∀ (blk : List Nat) (inp : List Int) (blk1 : List Nat)
    (rest t : List Int), readBody k blk inp = some (blk1, rest) →
      readBody k blk (inp ++ t) = some (blk1, rest ++ t) := by
  induction k with
  | zero =>
    intro blk inp blk1 rest t h
    simp only [readBody, Option.some.injEq, Prod.mk.injEq] at h
    simp [readBody, h.1, h.2]
  | succ k ih =>
    intro blk inp blk1 rest t h
    cases inp with
    | nil => simp [readBody] at h
    | cons bi tl =>
      simp only [readBody] at h
      simpa [readBody] using ih _ _ _ _ t h

theorem iteration_append_cont (m w : List Nat) (inp t : List Int) (st1 : RxState)
    (h : iteration ⟨m, w, inp⟩ = Step.cont st1) :
    iteration ⟨m, w, inp ++ t⟩ = Step.cont { st1 with input := st1.input ++ t } := by
  cases inp with
  | nil => simp [iteration] at h
  | cons b0 rest =>
    simp only [iteration] at h
    simp only [iteration, List.cons_append]
    split at h
    · simp at h
    · rename_i hE
      rw [if_neg hE]
      split at h
      · rename_i hS
        rw [if_pos hS]
        simp only [Step.cont.injEq] at h
        subst h
        rfl
      · rename_i hS
        rw [if_neg hS]
        split at h
        · simp at h
        · rename_i blk rest1 hrb
          rw [readBody_append _ _ _ _ _ t hrb]
          simp only
          split at h
          · rename_i hc
            rw [if_pos hc]
            simp only [Step.cont.injEq] at h
            subst h
            rfl
          · rename_i hc
            rw [if_neg hc]
            split at h
            · rename_i hk
              rw [if_pos hk]
              simp only [Step.cont.injEq] at h
              subst h
              rfl
            · rename_i hk
              rw [if_neg hk]
              simp only [Step.cont.injEq] at h
              subst h
              rfl

theorem iteration_waitControl (st st1 : RxState) (h : iteration st = Step.waitControl st1) :
    st.input = [] ∧ st1 = st := by
  obtain ⟨m, w, inp⟩ := st
  cases inp with
  | nil =>
    simp only [iteration, Step.waitControl.injEq] at h
    exact ⟨rfl, h.symm⟩
  | cons b0 rest =>
    simp only [iteration] at h
    split at h
    · simp at h
    · split at h
      · simp at h
      · split at h
        · simp at h
        · split at h
          · simp at h
          · split at h <;> simp at h

theorem iteration_eot (m w : List Nat) (t : List Int) :
    iteration ⟨m, w, 0x04 :: t⟩ = Step.brk ⟨m, w ++ [ACK], t⟩ := by
  simp [iteration, EOT, comWrite, ACK, toUChar]

theorem rxLoop_waitControl_then_eot : ∀ (k : Nat) (m w : List Nat) (s t : List Int)
    (st1 : RxState), s.length = k → rxLoop ⟨m, w, s⟩ = Outcome.waitControl st1 →
      rxLoop ⟨m, w, s ++ 0x04 :: t⟩ = Outcome.done ⟨st1.nachricht, st1.written ++ [ACK], t⟩ := by
  intro k
  induction k using Nat.strong_induction_on with
  | _ k ih =>
    intro m w s t st1 hk h
    rw [rxLoop_unfold] at h
    cases hi : iteration ⟨m, w, s⟩ with
    | brk st2 => simp [hi] at h
    | waitBody st2 => simp [hi] at h
    | waitControl st2 =>
      simp only [hi, Outcome.waitControl.injEq] at h
      obtain ⟨hs, h2⟩ := iteration_waitControl _ _ hi
      simp only at hs
      subst hs
      subst h
      subst h2
      simp only [List.nil_append]
      exact rxLoop_brk (iteration_eot m w t)
    | cont st2 =>
      simp only [hi] at h
      have hlt := iteration_cont_length _ _ hi
      simp only at hlt
      rw [rxLoop_cont (iteration_append_cont m w s (0x04 :: t) st2 hi)]
      obtain ⟨m2, w2, s2⟩ := st2
      exact ih s2.length (by simpa [hk] using hlt) m2 w2 s2 t st1 rfl h

/-- C6 (termination on EOT): if after the read results `s` the receiver awaits a control
byte with message `m` (state `st1`), then on `s` followed by 0x04 followed by any `t` the
loop ends right after the 0x04: exactly one `ACK` is written for it, all of `t` is left
unread and the final message is `m`. -/
theorem termination_on_eot (m0 w0 : List Nat) (s t : List Int) (st1 : RxState)
    (h : rxLoop ⟨m0, w0, s⟩ = Outcome.waitControl st1) :
    rxLoop ⟨m0, w0, s ++ 0x04 :: t⟩
      = Outcome.done ⟨st1.nachricht, st1.written ++ [ACK], t⟩ :=
  rxLoop_waitControl_then_eot s.length m0 w0 s t st1 rfl h

theorem termination_on_eot_witness :
    rxLoop ⟨[], [0x15], [0x01, 0x05, 0xFA, 0x48, 0x49, 0x03, 0x03, 0x03, 0x9A] ++ 0x04 :: [0x01, 0x04]⟩
      = Outcome.done ⟨[0x48, 0x49], [0x15, 0x06] ++ [ACK], [0x01, 0x04]⟩ :=
  termination_on_eot [] [0x15] [0x01, 0x05, 0xFA, 0x48, 0x49, 0x03, 0x03, 0x03, 0x9A]
    [0x01, 0x04] ⟨[0x48, 0x49], [0x15, 0x06], []⟩ (by decide)

/-! ## The whole loop in terms of the blocks of the stream -/

theorem iteration_block (m w : List Nat) (b1 b2 b3 b4 b5 b6 b7 b8 : Int) (rest : List Int) :
    iteration ⟨m, w, 1 :: b1 :: b2 :: b3 :: b4 :: b5 :: b6 :: b7 :: b8 :: rest⟩
      = Step.cont ⟨m ++ delivered [1, b1, b2, b3, b4, b5, b6, b7, b8],
          w ++ [answer [1, b1, b2, b3, b4, b5, b6, b7, b8]], rest⟩ := by
  have hd : DATABYTES = 5 := rfl
  rw [iteration_soh]
  simp only [delivered, answer, accepted, stored, List.map, List.getD_cons_succ,
    List.getD_cons_zero, List.drop_succ_cons, List.drop_zero, checksum5_five, hd,
    List.take_succ_cons, List.take_zero, Bool.and_eq_true, beq_iff_eq]
  by_cases hc : toUChar (255 - (toUChar b1 : Int)) = toUChar b2
  · by_cases hk : (toUChar b3 + toUChar b4 + toUChar b5 + toUChar b6 + toUChar b7) % 256
        = toUChar b8
    · simp [hc, hk]
    · simp [hc, hk]
  · simp [hc]

theorem readBody_short (blk : List Nat) (rest : List Int)
    (h : ∀ (b1 b2 b3 b4 b5 b6 b7 b8 : Int) (rest1 : List Int),
      rest = b1 :: b2 :: b3 :: b4 :: b5 :: b6 :: b7 :: b8 :: rest1 → False) :
    readBody (BLOCKSIZE - 1) blk rest = none := by
  have hb : BLOCKSIZE - 1 = 8 := by decide
  rw [hb]
  rcases rest with _ | ⟨b1, _ | ⟨b2, _ | ⟨b3, _ | ⟨b4, _ | ⟨b5, _ | ⟨b6, _ | ⟨b7, _ | ⟨b8, r⟩⟩⟩⟩⟩⟩⟩⟩
  all_goals first
    | rfl
    | exact (h _ _ _ _ _ _ _ _ _ rfl).elim

theorem iteration_soh_short (m w : List Nat) (rest : List Int)
    (h : ∀ (b1 b2 b3 b4 b5 b6 b7 b8 : Int) (rest1 : List Int),
      rest = b1 :: b2 :: b3 :: b4 :: b5 :: b6 :: b7 :: b8 :: rest1 → False) :
    iteration ⟨m, w, 1 :: rest⟩ = Step.waitBody ⟨m, w, []⟩ := by
  have hE : ((1 : Int) = (EOT : Int)) = False := by decide
  have hS : ((1 : Int) ≠ (SOH : Int)) = False := by decide
  simp only [iteration, hE, hS, if_false, readBody_short _ rest h]

theorem iteration_noise (m w : List Nat) (b : Int) (rest : List Int)
    (he : ¬ b = 4) (hs : ¬ b = 1) :
    iteration ⟨m, w, b :: rest⟩ = Step.cont ⟨m, w, rest⟩ := by
  have hE : ¬ b = (EOT : Int) := he
  have hS : b ≠ (SOH : Int) := hs
  simp [iteration, hE, hS]

theorem blocksOf_eot (rest : List Int) : blocksOf (4 :: rest) = [] := by
  unfold blocksOf
  simp

theorem blocksOf_noise (b : Int) (rest : List Int) (he : ¬ b = 4) (hs : ¬ b = 1) :
    blocksOf (b :: rest) = blocksOf rest := by
  conv => lhs; unfold blocksOf
  simp [he, hs]

theorem blocksOf_block (b1 b2 b3 b4 b5 b6 b7 b8 : Int) (rest : List Int) :
    blocksOf (1 :: b1 :: b2 :: b3 :: b4 :: b5 :: b6 :: b7 :: b8 :: rest)
      = [1, b1, b2, b3, b4, b5, b6, b7, b8] :: blocksOf rest := by
  conv => lhs; unfold blocksOf
  simp

/-- When the loop is left, the message and the written bytes are those of the blocks of
the stream, block by block. -/
theorem rxLoop_done_blocks (stream : List Int) : ∀ (m w : List Nat) (st : RxState),
    rxLoop ⟨m, w, stream⟩ = Outcome.done st →
      st.nachricht = m ++ (blocksOf stream).flatMap delivered ∧
      st.written = w ++ (blocksOf stream).map answer ++ [ACK] := by
  induction stream using blocksOf.induct with
  | case1 =>
    intro m w st h
    rw [rxLoop_unfold] at h
    simp [iteration] at h
  | case2 rest =>
    intro m w st h
    rw [rxLoop_brk (iteration_eot m w rest)] at h
    simp only [Outcome.done.injEq] at h
    subst h
    simp [blocksOf_eot]
  | case3 b1 b2 b3 b4 b5 b6 b7 b8 rest1 _ ih =>
    intro m w st h
    rw [rxLoop_cont (iteration_block m w b1 b2 b3 b4 b5 b6 b7 b8 rest1)] at h
    obtain ⟨h1, h2⟩ := ih _ _ st h
    rw [blocksOf_block]
    simp [h1, h2]
  | case4 rest hshort _ =>
    intro m w st h
    rw [rxLoop_unfold, iteration_soh_short m w rest hshort] at h
    simp at h
  | case5 b0 rest he hs ih =>
    intro m w st h
    rw [rxLoop_cont (iteration_noise m w b0 rest he hs)] at h
    rw [blocksOf_noise b0 rest he hs]
    exact ih m w st h

/-! ## The closed form against the reference reading -/

theorem filter_etx_cast (l : List Nat) :
    ((l.map (fun n : Nat => (n : Int))).filter (fun c => c ≠ 0x03)).map Int.toNat
      = l.filter (fun c => c ≠ ETX) := by
  induction l with
  | nil => rfl
  | cons a tl ih =>
    by_cases ha : a = 3
    · subst ha
      simpa [ETX] using ih
    · have ha1 : ¬ (a : Int) = 3 := by omega
      simp only [List.map_cons, ne_eq, ha1, not_false_eq_true, decide_True, List.filter_cons_of_pos,
        Int.toNat_ofNat, ETX, ha]
      simpa [ETX] using ih

theorem delivered_of_bytes (n c d0 d1 d2 d3 d4 k : Nat) (hn : n < 256) (hc : c < 256)
    (h0 : d0 < 256) (h1 : d1 < 256) (h2 : d2 < 256) (h3 : d3 < 256) (h4 : d4 < 256)
    (hk : k < 256) :
    delivered [1, (n : Int), c, d0, d1, d2, d3, d4, k]
      = if blockValid [1, (n : Int), c, d0, d1, d2, d3, d4, k]
        then strippedPayload [1, (n : Int), c, d0, d1, d2, d3, d4, k] else [] := by
  have hd : DATABYTES = 5 := rfl
  have hsp : strippedPayload [1, (n : Int), c, d0, d1, d2, d3, d4, k]
      = [d0, d1, d2, d3, d4].filter (fun x => x ≠ ETX) := by
    rw [← filter_etx_cast]
    rfl
  have hacc : accepted [1, (n : Int), c, d0, d1, d2, d3, d4, k]
      = blockValid [1, (n : Int), c, d0, d1, d2, d3, d4, k] := by
    simp only [accepted, stored, List.map, List.getD_cons_succ, List.getD_cons_zero,
      List.drop_succ_cons, List.drop_zero, checksum5_five, toUChar_of_lt hn, toUChar_of_lt hc,
      toUChar_of_lt h0, toUChar_of_lt h1, toUChar_of_lt h2, toUChar_of_lt h3, toUChar_of_lt h4,
      toUChar_of_lt hk, toUChar_sub_of_lt hn, blockValid, complementOk, checksumOk]
    rw [Bool.eq_iff_iff]
    simp only [Bool.and_eq_true, beq_iff_eq]
    constructor
    · rintro ⟨ha, hb⟩
      constructor <;> omega
    · rintro ⟨ha, hb⟩
      constructor <;> omega
  rw [hsp]
  simp only [delivered, hacc, stored, List.map, List.drop_succ_cons, List.drop_zero, hd,
    List.take_succ_cons, List.take_zero, toUChar_of_lt h0, toUChar_of_lt h1, toUChar_of_lt h2,
    toUChar_of_lt h3, toUChar_of_lt h4]

theorem exists_nat_of_byte {x : Int} (h : 0 ≤ x ∧ x ≤ 255) : ∃ n : Nat, x = n ∧ n < 256 :=
  ⟨x.toNat, by omega, by omega⟩

theorem flatMap_delivered_eq_ref (stream : List Int) :
    (∀ x ∈ stream, 0 ≤ x ∧ x ≤ 255) →
      (blocksOf stream).flatMap delivered = refMessage stream := by
  unfold refMessage
  induction stream using blocksOf.induct with
  | case1 => intro _; rfl
  | case2 rest => intro _; simp [blocksOf_eot]
  | case3 b1 b2 b3 b4 b5 b6 b7 b8 rest1 _ ih =>
    intro hb
    simp only [List.mem_cons, forall_eq_or_imp] at hb
    obtain ⟨_, hb1, hb2, hb3, hb4, hb5, hb6, hb7, hb8, hrest⟩ := hb
    obtain ⟨n, rfl, hn⟩ := exists_nat_of_byte hb1
    obtain ⟨c, rfl, hc⟩ := exists_nat_of_byte hb2
    obtain ⟨d0, rfl, h0⟩ := exists_nat_of_byte hb3
    obtain ⟨d1, rfl, h1⟩ := exists_nat_of_byte hb4
    obtain ⟨d2, rfl, h2⟩ := exists_nat_of_byte hb5
    obtain ⟨d3, rfl, h3⟩ := exists_nat_of_byte hb6
    obtain ⟨d4, rfl, h4⟩ := exists_nat_of_byte hb7
    obtain ⟨k, rfl, hk⟩ := exists_nat_of_byte hb8
    rw [blocksOf_block, List.flatMap_cons, ih hrest,
      delivered_of_bytes n c d0 d1 d2 d3 d4 k hn hc h0 h1 h2 h3 h4 hk]
    by_cases hv : blockValid [1, (n : Int), c, d0, d1, d2, d3, d4, k] = true
    · simp [hv, List.filter_cons]
    · simp [hv, List.filter_cons]
  | case4 rest hshort _ =>
    intro _
    have : blocksOf (1 :: rest) = [] := by
      unfold blocksOf
      rcases rest with _ | ⟨b1, _ | ⟨b2, _ | ⟨b3, _ | ⟨b4, _ | ⟨b5, _ | ⟨b6, _ | ⟨b7, _ | ⟨b8, r⟩⟩⟩⟩⟩⟩⟩⟩
      all_goals first
        | exact (hshort _ _ _ _ _ _ _ _ _ rfl).elim
        | simp
    simp [this]
  | case5 b0 rest he hs ih =>
    intro hb
    rw [blocksOf_noise b0 rest he hs]
    exact ih (fun x hx => hb x (List.mem_cons_of_mem _ hx))

theorem main_exit_zero (stream : List Int) (h : (main true stream).exitCode = some 0) :
    ∃ st, rxLoop ⟨[], [NAK], stream⟩ = Outcome.done st ∧
      main true stream = ⟨some 0, st.written, some st.nachricht, st.input⟩ := by
  have hN : toUChar (NAK : Int) = NAK := by decide
  simp only [main, comWrite, hN, List.nil_append, Bool.not_true, Bool.false_eq_true,
    if_false] at h ⊢
  cases hr : rxLoop ⟨[], [NAK], stream⟩ with
  | done st => exact ⟨st, rfl, rfl⟩
  | waitControl st => simp [hr] at h
  | waitBody st => simp [hr] at h
  | outOfFuel => simp [hr] at h

/-- Where every read succeeds the message is the reference message: on every stream of
bytes (every read result is a value 0..255) on which the receive loop of `main` ends, the
message is the concatenation, in arrival order, of the payloads (offsets 3..7) without their
0x03 bytes of exactly those SOH-initiated 9-byte blocks that pass complement check and
checksum check; failing blocks and bytes outside blocks contribute nothing. -/
theorem message_eq_reference (stream : List Int) (hbytes : ∀ x ∈ stream, 0 ≤ x ∧ x ≤ 255)
    (hterm : (main true stream).exitCode = some 0) :
    (main true stream).printed = some (refMessage stream) := by
  obtain ⟨st, hst, hm⟩ := main_exit_zero stream hterm
  obtain ⟨h1, _⟩ := rxLoop_done_blocks stream [] [NAK] st hst
  rw [hm, h1, flatMap_delivered_eq_ref stream hbytes]
  rfl

theorem message_eq_reference_witness :
    (main true [0x41, 0x01, 0x05, 0xFA, 0x48, 0x49, 0x03, 0x03, 0x03, 0x9A, 0x01, 0x05, 0xFB,
        0x4A, 0x4B, 0x03, 0x03, 0x03, 0x9E, 0x01, 0x00, 0xFF, 0x4C, 0x03, 0x4D, 0x03, 0x03, 0xA2,
        0x04]).printed
      = some (refMessage [0x41, 0x01, 0x05, 0xFA, 0x48, 0x49, 0x03, 0x03, 0x03, 0x9A, 0x01, 0x05,
        0xFB, 0x4A, 0x4B, 0x03, 0x03, 0x03, 0x9E, 0x01, 0x00, 0xFF, 0x4C, 0x03, 0x4D, 0x03, 0x03,
        0xA2, 0x04]) ∧
    refMessage [0x41, 0x01, 0x05, 0xFA, 0x48, 0x49, 0x03, 0x03, 0x03, 0x9A, 0x01, 0x05,
        0xFB, 0x4A, 0x4B, 0x03, 0x03, 0x03, 0x9E, 0x01, 0x00, 0xFF, 0x4C, 0x03, 0x4D, 0x03, 0x03,
        0xA2, 0x04] = [0x48, 0x49, 0x4C, 0x4D] :=
  ⟨message_eq_reference _ (by decide) (by decide), by decide⟩

/-- C9 (shape of the written byte sequence): on every stream on which the receive loop
ends, `main` has written one `NAK`, then for each SOH-initiated block in arrival order
exactly one byte, which is `ACK` or `NAK`, then one final `ACK` for the `EOT`; that is
(number of blocks) + 2 bytes, none of them for a noise byte. The opening `NAK` is out
before any read has returned: it is written even when no read result ever comes. -/
theorem written_shape (stream : List Int) (hterm : (main true stream).exitCode = some 0) :
    (main true stream).written = [NAK] ++ (blocksOf stream).map answer ++ [ACK] ∧
    (∀ blk : List Int, answer blk = ACK ∨ answer blk = NAK) ∧
    (main true stream).written.length = (blocksOf stream).length + 2 ∧
    (main true []).written = [NAK] := by
  obtain ⟨st, hst, hm⟩ := main_exit_zero stream hterm
  obtain ⟨_, h2⟩ := rxLoop_done_blocks stream [] [NAK] st hst
  have hw : (main true stream).written = [NAK] ++ (blocksOf stream).map answer ++ [ACK] := by
    rw [hm, ← h2]
  refine ⟨hw, ?_, ?_, by decide⟩
  · intro blk
    unfold answer
    by_cases ha : accepted blk = true
    · exact Or.inl (by simp [ha])
    · exact Or.inr (by simp [ha])
  · rw [hw]
    simp

theorem written_shape_witness :
    (main true [0x41, 0x01, 0x05, 0xFA, 0x48, 0x49, 0x03, 0x03, 0x03, 0x9A, 0x42, 0x01, 0x05,
        0xFB, 0x4A, 0x4B, 0x03, 0x03, 0x03, 0x9E, 0x04]).written = [0x15, 0x06, 0x15, 0x06] ∧
    (blocksOf [0x41, 0x01, 0x05, 0xFA, 0x48, 0x49, 0x03, 0x03, 0x03, 0x9A, 0x42, 0x01, 0x05,
        0xFB, 0x4A, 0x4B, 0x03, 0x03, 0x03, 0x9E, 0x04]).length = 2 ∧
    (main true [0x41, 0x01, 0x05, 0xFA, 0x48, 0x49, 0x03, 0x03, 0x03, 0x9A, 0x42, 0x01, 0x05,
        0xFB, 0x4A, 0x4B, 0x03, 0x03, 0x03, 0x9E, 0x04]).written.length
      = (blocksOf [0x41, 0x01, 0x05, 0xFA, 0x48, 0x49, 0x03, 0x03, 0x03, 0x9A, 0x42, 0x01, 0x05,
        0xFB, 0x4A, 0x4B, 0x03, 0x03, 0x03, 0x9E, 0x04]).length + 2 :=
  ⟨by decide, by decide,
    (written_shape [0x41, 0x01, 0x05, 0xFA, 0x48, 0x49, 0x03, 0x03, 0x03, 0x9A, 0x42, 0x01, 0x05,
        0xFB, 0x4A, 0x4B, 0x03, 0x03, 0x03, 0x9E, 0x04] (by decide)).2.2.1⟩

/-! ## Round trip -/

theorem iteration_frame (m w : List Nat) (rest : List Int) (n d0 d1 d2 d3 d4 : Nat)
    (hn : n < 256) (h0 : d0 < 256) (h1 : d1 < 256) (h2 : d2 < 256) (h3 : d3 < 256)
    (h4 : d4 < 256) :
    iteration ⟨m, w, (frame n [d0, d1, d2, d3, d4]).map Int.ofNat ++ rest⟩
      = Step.cont ⟨m ++ [d0, d1, d2, d3, d4].filter (fun x => x ≠ ETX), w ++ [ACK], rest⟩ := by
  have hk : (d0 + d1 + d2 + d3 + d4) % 256 < 256 := Nat.mod_lt _ (by decide)
  have hc : 255 - n < 256 := by omega
  have hsum : [d0, d1, d2, d3, d4].sum = d0 + d1 + d2 + d3 + d4 := by
    simp only [List.sum_cons, List.sum_nil]
    omega
  have h1i : Int.ofNat 1 = 1 := rfl
  simp only [frame, hsum, List.cons_append, List.nil_append, List.map_cons, List.map_nil, h1i,
    Int.ofNat_eq_coe]
  rw [iteration_soh]
  simp only [toUChar_of_lt hn, toUChar_of_lt h0, toUChar_of_lt h1, toUChar_of_lt h2,
    toUChar_of_lt h3, toUChar_of_lt h4, toUChar_of_lt hk, toUChar_of_lt hc,
    toUChar_sub_of_lt hn]
  simp

theorem rxLoop_frame (m w : List Nat) (more : List Nat) (tail : List Int)
    (n d0 d1 d2 d3 d4 : Nat) (hn : n < 256) (h0 : d0 < 256) (h1 : d1 < 256) (h2 : d2 < 256)
    (h3 : d3 < 256) (h4 : d4 < 256) :
    rxLoop ⟨m, w, (frame n [d0, d1, d2, d3, d4] ++ more).map Int.ofNat ++ tail⟩
      = rxLoop ⟨m ++ [d0, d1, d2, d3, d4].filter (fun x => x ≠ ETX), w ++ [ACK],
          more.map Int.ofNat ++ tail⟩ := by
  rw [List.map_append, List.append_assoc]
  exact rxLoop_cont (iteration_frame m w _ n d0 d1 d2 d3 d4 hn h0 h1 h2 h3 h4)

/-- The frames of the chunks of a payload without `ETX` bytes are accepted one after the
other and leave the payload in the message. -/
theorem rxLoop_frames (seq : Nat → Nat) (hseq : ∀ i, seq i < 256) (p : List Nat) :
    (∀ b ∈ p, b < 256 ∧ b ≠ ETX) → ∀ (i : Nat) (m w : List Nat) (tail : List Int),
      rxLoop ⟨m, w, (framesFrom seq i (chunks5 p)).map Int.ofNat ++ tail⟩
        = rxLoop ⟨m ++ p, w ++ List.replicate (chunks5 p).length ACK, tail⟩ := by
  have hE : ETX < 256 := by decide
  induction p using chunks5.induct with
  | case1 =>
    intro _ i m w tail
    simp [chunks5, framesFrom]
  | case2 a =>
    intro hp i m w tail
    simp only [List.mem_cons, List.mem_singleton, forall_eq_or_imp, forall_eq,
      List.not_mem_nil, false_imp_iff, implies_true, and_true] at hp
    simp only [chunks5, framesFrom]
    rw [rxLoop_frame m w [] tail (seq i) a ETX ETX ETX ETX (hseq i) hp.1 hE hE hE hE]
    simp [hp.2]
  | case3 a b =>
    intro hp i m w tail
    simp only [List.mem_cons, List.mem_singleton, forall_eq_or_imp, forall_eq,
      List.not_mem_nil, false_imp_iff, implies_true, and_true] at hp
    simp only [chunks5, framesFrom]
    rw [rxLoop_frame m w [] tail (seq i) a b ETX ETX ETX (hseq i) hp.1.1 hp.2.1 hE hE hE]
    simp [hp.1.2, hp.2.2]
  | case4 a b c =>
    intro hp i m w tail
    simp only [List.mem_cons, List.mem_singleton, forall_eq_or_imp, forall_eq,
      List.not_mem_nil, false_imp_iff, implies_true, and_true] at hp
    simp only [chunks5, framesFrom]
    rw [rxLoop_frame m w [] tail (seq i) a b c ETX ETX (hseq i) hp.1.1 hp.2.1.1 hp.2.2.1 hE hE]
    simp [hp.1.2, hp.2.1.2, hp.2.2.2]
  | case5 a b c d =>
    intro hp i m w tail
    simp only [List.mem_cons, List.mem_singleton, forall_eq_or_imp, forall_eq,
      List.not_mem_nil, false_imp_iff, implies_true, and_true] at hp
    simp only [chunks5, framesFrom]
    rw [rxLoop_frame m w [] tail (seq i) a b c d ETX (hseq i) hp.1.1 hp.2.1.1 hp.2.2.1.1
      hp.2.2.2.1 hE]
    simp [hp.1.2, hp.2.1.2, hp.2.2.1.2, hp.2.2.2.2]
  | case6 a b c d e tl ih =>
    intro hp i m w tail
    simp only [List.mem_cons, forall_eq_or_imp] at hp
    obtain ⟨ha, hb, hc, hd, he, htl⟩ := hp
    simp only [chunks5, framesFrom]
    rw [rxLoop_frame m w _ tail (seq i) a b c d e (hseq i) ha.1 hb.1 hc.1 hd.1 he.1,
      ih htl (i + 1)]
    simp [ha.2, hb.2, hc.2, hd.2, he.2, List.replicate_succ]

theorem main_senderStream (seq : Nat → Nat) (hseq : ∀ i, seq i < 256) (p : List Nat)
    (hp : ∀ b ∈ p, b < 256 ∧ b ≠ ETX) :
    main true (senderStream seq p)
      = { exitCode := some 0,
          written := [NAK] ++ List.replicate (chunks5 p).length ACK ++ [ACK],
          printed := some p, unread := [] } := by
  have hN : toUChar (NAK : Int) = NAK := by decide
  have h4 : Int.ofNat 4 = 4 := rfl
  have hloop : rxLoop ⟨[], [NAK], senderStream seq p⟩
      = Outcome.done ⟨p, [NAK] ++ List.replicate (chunks5 p).length ACK ++ [ACK], []⟩ := by
    simp only [senderStream, List.map_append, List.map_cons, List.map_nil, h4]
    rw [rxLoop_frames seq hseq p hp 0 [] [NAK] [4]]
    exact rxLoop_brk (iteration_eot _ _ _)
  simp only [main, comWrite, hN, List.nil_append, Bool.not_true, Bool.false_eq_true,
    if_false, hloop]

/-- C1 (round trip): for every payload `p` of printable bytes (0x20..0x7E) none of which is
`ETX` (0x03) and every choice of sequence bytes `seq i`, when `Serial::read` returns, byte
by byte, the frames `[0x01, n, 255-n, chunk, (sum of chunk) mod 256]` of the 5-byte chunks
of `p` (the last one padded with 0x03) followed by `EOT` (0x04), the receive loop ends,
`main` returns 0 and the reconstructed message is exactly `p`; every frame was answered
with `ACK` and nothing is left unread. -/
theorem round_trip (seq : Nat → Nat) (hseq : ∀ i, seq i < 256) (p : List Nat)
    (hp : ∀ b ∈ p, 0x20 ≤ b ∧ b ≤ 0x7E ∧ b ≠ 0x03) :
    main true (senderStream seq p)
      = { exitCode := some 0,
          written := [NAK] ++ List.replicate (chunks5 p).length ACK ++ [ACK],
          printed := some p, unread := [] } :=
  main_senderStream seq hseq p (fun b hb => ⟨by have := hp b hb; omega, (hp b hb).2.2⟩)

theorem round_trip_witness :
    senderStream (fun i => (i + 7) % 256) [0x48, 0x65, 0x6C, 0x6C, 0x6F, 0x21]
      = [0x01, 7, 248, 0x48, 0x65, 0x6C, 0x6C, 0x6F, 0xF4,
         0x01, 8, 247, 0x21, 0x03, 0x03, 0x03, 0x03, 0x2D, 0x04] ∧
    main true (senderStream (fun i => (i + 7) % 256) [0x48, 0x65, 0x6C, 0x6C, 0x6F, 0x21])
      = { exitCode := some 0,
          written := [NAK] ++ List.replicate
            (chunks5 [0x48, 0x65, 0x6C, 0x6C, 0x6F, 0x21]).length ACK ++ [ACK],
          printed := some [0x48, 0x65, 0x6C, 0x6C, 0x6F, 0x21], unread := [] } :=
  ⟨by decide, round_trip (fun i => (i + 7) % 256) (fun i => Nat.mod_lt _ (by decide))
    [0x48, 0x65, 0x6C, 0x6C, 0x6F, 0x21] (by decide)⟩

/-! ## Failed reads -/

/-- C7 (a transport read failure should be fatal): what the code does instead. A failed
read (`-1`) at a control position is passed over like a noise byte and a following `EOT`
ends the session normally with exit status 0; a failed read inside a block is stored as
the byte 0xFF, here completing a block that is accepted, answered with `ACK` and
delivered; and after a failed read the loop goes on reading, every later read result is
still asked for. -/
theorem read_failure_not_fatal :
    main true [-1, 0x04]
      = { exitCode := some 0, written := [0x15, 0x06], printed := some [], unread := [] } ∧
    main true [0x01, 0x00, -1, 0x48, 0x49, 0x03, 0x03, 0x03, 0x9A, 0x04]
      = { exitCode := some 0, written := [0x15, 0x06, 0x06], printed := some [0x48, 0x49],
          unread := [] } ∧
    main true [-1, -1, -1]
      = { exitCode := none, written := [0x15], printed := none, unread := [] } := by
  refine ⟨by decide, by decide, by decide⟩

theorem appendDataAcc_no_etx (blk m : List Nat) : ∀ (k : Nat),
    ∃ d : List Nat, appendDataAcc blk m k = m ++ d ∧ ETX ∉ d := by
  intro k
  induction k with
  | zero => exact ⟨[], by simp [appendDataAcc], by simp⟩
  | succ k ih =>
    obtain ⟨d, hd, hn⟩ := ih
    unfold appendDataAcc at hd ⊢
    rw [List.range_succ, List.foldl_append, hd]
    simp only [List.foldl_cons, List.foldl_nil]
    by_cases hc : blk.getD (3 + k) 0 = ETX
    · exact ⟨d, by rw [if_neg (fun h => h hc)], hn⟩
    · refine ⟨d ++ [blk.getD (3 + k) 0], by rw [if_pos hc, List.append_assoc], ?_⟩
      simp only [List.mem_append, List.mem_singleton, not_or]
      exact ⟨hn, fun h => hc h.symm⟩

theorem appendData_no_etx (blk m : List Nat) :
    ∃ d : List Nat, appendData blk m = m ++ d ∧ ETX ∉ d :=
  appendDataAcc_no_etx blk m DATABYTES

theorem iteration_no_etx (st : RxState) (h : ETX ∉ st.nachricht) :
    ETX ∉ (iteration st).state.nachricht := by
  obtain ⟨m, w, inp⟩ := st
  cases inp with
  | nil => simpa [iteration, Step.state] using h
  | cons b0 rest =>
    simp only [iteration]
    split
    · simpa [Step.state, comWrite] using h
    · split
      · simpa [Step.state] using h
      · split
        · simpa [Step.state] using h
        · rename_i blk rest1 _
          split
          · simpa [Step.state, comWrite] using h
          · split
            · simpa [Step.state, comWrite] using h
            · obtain ⟨d, hd, hn⟩ := appendData_no_etx blk m
              simp only [Step.state, comWrite, hd, List.mem_append, not_or]
              exact ⟨h, hn⟩

theorem passes_no_etx : ∀ (k : Nat) (st : RxState), ETX ∉ st.nachricht →
    ETX ∉ (passes k st).nachricht := by
  intro k
  induction k with
  | zero => intro st h; exact h
  | succ k ih =>
    intro st h
    have hs := iteration_no_etx st h
    simp only [passes]
    cases hi : iteration st with
    | brk st1 => simpa [hi, Step.state] using hs
    | cont st1 => exact ih st1 (by simpa [hi, Step.state] using hs)
    | waitControl st1 => simpa [hi, Step.state] using hs
    | waitBody st1 => simpa [hi, Step.state] using hs

theorem loopFuel_no_etx : ∀ (fuel : Nat) (st st1 : RxState), ETX ∉ st.nachricht →
    loopFuel fuel st = Outcome.done st1 → ETX ∉ st1.nachricht := by
  intro fuel
  induction fuel with
  | zero => intro st st1 _ h; simp [loopFuel] at h
  | succ fuel ih =>
    intro st st1 h hl
    have hs := iteration_no_etx st h
    simp only [loopFuel] at hl
    cases hi : iteration st with
    | brk st2 =>
      simp only [hi, Outcome.done.injEq] at hl
      subst hl
      simpa [hi, Step.state] using hs
    | cont st2 =>
      simp only [hi] at hl
      exact ih st2 st1 (by simpa [hi, Step.state] using hs) hl
    | waitControl st2 => simp [hi] at hl
    | waitBody st2 => simp [hi] at hl

/-- C11 (padding never reaches the message): on every stream of read results, after any
number `k` of passes of the receive loop of `main` the message holds no byte `ETX` (0x03);
the same holds after every round of the loop that takes over the data of an accepted
block, whatever the block holds, and for the message `main` prints. A block with 0x03 in
its payload is accepted all the same, for instance `01 00 FF 03 41 03 42 03 8C`. -/
theorem padding_never_in_message (stream : List Int) :
    (∀ k : Nat, ETX ∉ (passes k (comWrite ⟨[], [], stream⟩ NAK)).nachricht) ∧
    (∀ (k : Nat) (blk : List Nat) (m : List Nat), ETX ∉ m → ETX ∉ appendDataAcc blk m k) ∧
    (∀ (openOk : Bool) (msg : List Nat),
      (main openOk stream).printed = some msg → ETX ∉ msg) ∧
    iteration ⟨[], [NAK], [0x01, 0x00, 0xFF, 0x03, 0x41, 0x03, 0x42, 0x03, 0x8C]⟩
      = Step.cont ⟨[0x41, 0x42], [NAK, ACK], []⟩ := by
  refine ⟨?_, ?_, ?_, by decide⟩
  · intro k
    exact passes_no_etx k _ (by simp [comWrite])
  · intro k blk m hm
    obtain ⟨d, hd, hn⟩ := appendDataAcc_no_etx blk m k
    rw [hd]
    simp only [List.mem_append, not_or]
    exact ⟨hm, hn⟩
  · intro openOk msg hmsg
    cases openOk with
    | false => simp [main] at hmsg
    | true =>
      simp only [main, Bool.not_true, Bool.false_eq_true, if_false] at hmsg
      cases hr : rxLoop (comWrite ⟨[], [], stream⟩ NAK) with
      | done st =>
        simp only [hr, Option.some.injEq] at hmsg
        subst hmsg
        exact loopFuel_no_etx _ _ st (by simp [comWrite]) hr
      | waitControl st => simp [hr] at hmsg
      | waitBody st => simp [hr] at hmsg
      | outOfFuel => simp [hr] at hmsg

theorem padding_never_in_message_witness :
    ETX ∉ (passes 1 (comWrite ⟨[], [], [0x01, 0x00, 0xFF, 0x03, 0x41, 0x03, 0x42, 0x03, 0x8C,
        0x04]⟩ NAK)).nachricht ∧
    (passes 1 (comWrite ⟨[], [], [0x01, 0x00, 0xFF, 0x03, 0x41, 0x03, 0x42, 0x03, 0x8C,
        0x04]⟩ NAK)).nachricht = [0x41, 0x42] ∧
    ETX ∉ [0x41, 0x42] :=
  ⟨(padding_never_in_message [0x01, 0x00, 0xFF, 0x03, 0x41, 0x03, 0x42, 0x03, 0x8C, 0x04]).1 1,
    by decide,
    (padding_never_in_message [0x01, 0x00, 0xFF, 0x03, 0x41, 0x03, 0x42, 0x03, 0x8C, 0x04]).2.2.1
      true [0x41, 0x42] (by decide)⟩

/-! ## No deduplication -/

/-- C12 (no deduplication or sequence enforcement): a valid block `B` (sequence byte `n`,
complement `255-n`, payload `d0..d4`, correct checksum) read twice in a row while the
receiver awaits a control byte with message `m` is accepted twice: two `ACK`s are written
and the message is `m` followed by the stripped payload twice. And a valid block is accepted
in every state of the receiver with every sequence byte `n2`: the receiver keeps no
expected sequence number. -/
theorem no_deduplication (m w : List Nat) (rest : List Int) (n d0 d1 d2 d3 d4 : Nat)
    (hn : n < 256) (h0 : d0 < 256) (h1 : d1 < 256) (h2 : d2 < 256) (h3 : d3 < 256)
    (h4 : d4 < 256) :
    iteration ⟨m, w, (frame n [d0, d1, d2, d3, d4]).map Int.ofNat
        ++ ((frame n [d0, d1, d2, d3, d4]).map Int.ofNat ++ rest)⟩
      = Step.cont ⟨m ++ [d0, d1, d2, d3, d4].filter (fun x => x ≠ ETX), w ++ [ACK],
          (frame n [d0, d1, d2, d3, d4]).map Int.ofNat ++ rest⟩ ∧
    iteration ⟨m ++ [d0, d1, d2, d3, d4].filter (fun x => x ≠ ETX), w ++ [ACK],
        (frame n [d0, d1, d2, d3, d4]).map Int.ofNat ++ rest⟩
      = Step.cont ⟨m ++ [d0, d1, d2, d3, d4].filter (fun x => x ≠ ETX)
          ++ [d0, d1, d2, d3, d4].filter (fun x => x ≠ ETX), w ++ [ACK] ++ [ACK], rest⟩ ∧
    passes 2 ⟨m, w, (frame n [d0, d1, d2, d3, d4]).map Int.ofNat
        ++ ((frame n [d0, d1, d2, d3, d4]).map Int.ofNat ++ rest)⟩
      = ⟨m ++ [d0, d1, d2, d3, d4].filter (fun x => x ≠ ETX)
          ++ [d0, d1, d2, d3, d4].filter (fun x => x ≠ ETX), w ++ [ACK] ++ [ACK], rest⟩ ∧
    (∀ (n2 : Nat) (m2 w2 : List Nat) (rest2 : List Int), n2 < 256 →
      iteration ⟨m2, w2, (frame n2 [d0, d1, d2, d3, d4]).map Int.ofNat ++ rest2⟩
        = Step.cont ⟨m2 ++ [d0, d1, d2, d3, d4].filter (fun x => x ≠ ETX), w2 ++ [ACK],
            rest2⟩) := by
  have e1 := iteration_frame m w ((frame n [d0, d1, d2, d3, d4]).map Int.ofNat ++ rest)
    n d0 d1 d2 d3 d4 hn h0 h1 h2 h3 h4
  have e2 := iteration_frame (m ++ [d0, d1, d2, d3, d4].filter (fun x => x ≠ ETX)) (w ++ [ACK])
    rest n d0 d1 d2 d3 d4 hn h0 h1 h2 h3 h4
  refine ⟨e1, e2, ?_, ?_⟩
  · simp only [passes, e1, e2]
  · intro n2 m2 w2 rest2 hn2
    exact iteration_frame m2 w2 rest2 n2 d0 d1 d2 d3 d4 hn2 h0 h1 h2 h3 h4

theorem no_deduplication_witness :
    frame 5 [0x48, 0x49, 0x03, 0x03, 0x03] = [0x01, 0x05, 0xFA, 0x48, 0x49, 0x03, 0x03, 0x03, 0x9A] ∧
    passes 2 ⟨[0x47], [NAK], (frame 5 [0x48, 0x49, 0x03, 0x03, 0x03]).map Int.ofNat
        ++ ((frame 5 [0x48, 0x49, 0x03, 0x03, 0x03]).map Int.ofNat ++ [0x04])⟩
      = ⟨[0x47] ++ [0x48, 0x49, 0x03, 0x03, 0x03].filter (fun x => x ≠ ETX)
          ++ [0x48, 0x49, 0x03, 0x03, 0x03].filter (fun x => x ≠ ETX), [NAK] ++ [ACK] ++ [ACK],
          [0x04]⟩ :=
  ⟨by decide,
    (no_deduplication [0x47] [NAK] [0x04] 5 0x48 0x49 0x03 0x03 0x03 (by decide) (by decide)
      (by decide) (by decide) (by decide) (by decide)).2.2.1⟩

/-! ## checksum5 -/

theorem checksum5Acc_bounds (d0 d1 d2 d3 d4 : Nat) (tl : List Nat)
    (h0 : d0 < 256) (h1 : d1 < 256) (h2 : d2 < 256) (h3 : d3 < 256) (h4 : d4 < 256)
    (k : Nat) (hk : k ≤ DATABYTES) :
    0 ≤ checksum5Acc (d0 :: d1 :: d2 :: d3 :: d4 :: tl) k ∧
      checksum5Acc (d0 :: d1 :: d2 :: d3 :: d4 :: tl) k ≤ 255 * k := by
  have hd : DATABYTES = 5 := rfl
  rw [hd] at hk
  have r0 : List.range 0 = [] := rfl
  have r1 : List.range 1 = [0] := rfl
  have r2 : List.range 2 = [0, 1] := rfl
  have r3 : List.range 3 = [0, 1, 2] := rfl
  have r4 : List.range 4 = [0, 1, 2, 3] := rfl
  have r5 : List.range 5 = [0, 1, 2, 3, 4] := rfl
  interval_cases k
  · simp [checksum5Acc, r0]
  · simp only [checksum5Acc, r1, List.foldl_cons, List.foldl_nil, List.getD_cons_zero]
    omega
  · simp only [checksum5Acc, r2, List.foldl_cons, List.foldl_nil, List.getD_cons_zero,
      List.getD_cons_succ]
    omega
  · simp only [checksum5Acc, r3, List.foldl_cons, List.foldl_nil, List.getD_cons_zero,
      List.getD_cons_succ]
    omega
  · simp only [checksum5Acc, r4, List.foldl_cons, List.foldl_nil, List.getD_cons_zero,
      List.getD_cons_succ]
    omega
  · simp only [checksum5Acc, r5, List.foldl_cons, List.foldl_nil, List.getD_cons_zero,
      List.getD_cons_succ]
    omega

/-- C13 (checksum5 equals the reference sum): for five bytes `d0..d4` (each 0..255, whatever
follows them in memory) `checksum5` returns `(d0+d1+d2+d3+d4) mod 256`, a value in 0..255,
and the `int` accumulator `sum` stays between 0 and 1275 after every round of the loop,
far inside the range of an `int` (at least 16 bits), so it never overflows. -/
theorem checksum5_reference (d0 d1 d2 d3 d4 : Nat) (tl : List Nat)
    (h0 : d0 < 256) (h1 : d1 < 256) (h2 : d2 < 256) (h3 : d3 < 256) (h4 : d4 < 256) :
    checksum5 (d0 :: d1 :: d2 :: d3 :: d4 :: tl) = (d0 + d1 + d2 + d3 + d4) % 256 ∧
    checksum5 (d0 :: d1 :: d2 :: d3 :: d4 :: tl) < 256 ∧
    (∀ k : Nat, k ≤ DATABYTES →
      0 ≤ checksum5Acc (d0 :: d1 :: d2 :: d3 :: d4 :: tl) k ∧
      checksum5Acc (d0 :: d1 :: d2 :: d3 :: d4 :: tl) k ≤ 1275 ∧
      checksum5Acc (d0 :: d1 :: d2 :: d3 :: d4 :: tl) k < 2 ^ 15) ∧
    checksum5Acc (d0 :: d1 :: d2 :: d3 :: d4 :: tl) DATABYTES = ((d0 + d1 + d2 + d3 + d4 : Nat) : Int) := by
  refine ⟨checksum5_five d0 d1 d2 d3 d4 tl, ?_, ?_, checksum5Acc_five d0 d1 d2 d3 d4 tl⟩
  · rw [checksum5_five]
    exact Nat.mod_lt _ (by decide)
  · intro k hk
    obtain ⟨hlo, hhi⟩ := checksum5Acc_bounds d0 d1 d2 d3 d4 tl h0 h1 h2 h3 h4 k hk
    have hd : DATABYTES = 5 := rfl
    rw [hd] at hk
    refine ⟨hlo, ?_, ?_⟩ <;> omega

theorem checksum5_reference_witness :
    checksum5 (255 :: 255 :: 255 :: 255 :: 255 :: [0xFB]) = (255 + 255 + 255 + 255 + 255) % 256 ∧
    checksum5Acc (255 :: 255 :: 255 :: 255 :: 255 :: [0xFB]) DATABYTES = 1275 :=
  ⟨(checksum5_reference 255 255 255 255 255 [0xFB] (by decide) (by decide) (by decide)
      (by decide) (by decide)).1, by decide⟩

/-! ## Serial::read -/

/-- C14 (result range of `Serial::read`): for every state of the handle and every outcome
of the operating system read (the byte in `chRead` being an `unsigned char`), `read`
returns `-1` or a value in 0..255; it returns `-1` exactly when the handle is invalid, the
system read fails or the system read delivers a byte count other than 1; otherwise it
returns the byte read as an unsigned value, which is never `-1`. -/
theorem read_result_range (handleValid : Bool) (os : ReadFileOutcome) (hch : os.chRead < 256) :
    (Serial.read handleValid os = -1 ∨
      (0 ≤ Serial.read handleValid os ∧ Serial.read handleValid os ≤ 255)) ∧
    (Serial.read handleValid os = -1 ↔
      (handleValid = false ∨ os.success = false ∨ os.dwRead ≠ 1)) ∧
    (handleValid = true → os.success = true → os.dwRead = 1 →
      Serial.read handleValid os = (os.chRead : Int) ∧ Serial.read handleValid os ≠ -1) := by
  unfold Serial.read
  cases handleValid <;> cases hs : os.success <;> by_cases hd : os.dwRead = 1 <;>
    (simp [hd]; try omega)

theorem read_result_range_witness :
    Serial.read true ⟨true, 1, 0xFF⟩ = 255 ∧ Serial.read true ⟨true, 1, 0xFF⟩ ≠ -1 ∧
    Serial.read false ⟨true, 1, 0xFF⟩ = -1 ∧ Serial.read true ⟨false, 0, 0⟩ = -1 ∧
    Serial.read true ⟨true, 0, 0⟩ = -1 :=
  ⟨((read_result_range true ⟨true, 1, 0xFF⟩ (by decide)).2.2 rfl rfl rfl).1,
    ((read_result_range true ⟨true, 1, 0xFF⟩ (by decide)).2.2 rfl rfl rfl).2,
    by decide, by decide, by decide⟩

/-! ## Exit status -/

/-- When the loop is left, the stream splits at an `EOT` before which the receiver was
awaiting a control byte. -/
theorem rxLoop_done_split (stream : List Int) : ∀ (m w : List Nat) (st : RxState),
    rxLoop ⟨m, w, stream⟩ = Outcome.done st →
      ∃ (s t : List Int) (st1 : RxState), stream = s ++ 0x04 :: t ∧
        rxLoop ⟨m, w, s⟩ = Outcome.waitControl st1 ∧
        st = ⟨st1.nachricht, st1.written ++ [ACK], t⟩ := by
  induction stream using blocksOf.induct with
  | case1 =>
    intro m w st h
    rw [rxLoop_unfold] at h
    simp [iteration] at h
  | case2 rest =>
    intro m w st h
    rw [rxLoop_brk (iteration_eot m w rest)] at h
    simp only [Outcome.done.injEq] at h
    refine ⟨[], rest, ⟨m, w, []⟩, rfl, ?_, h.symm⟩
    rw [rxLoop_unfold]
    simp [iteration]
  | case3 b1 b2 b3 b4 b5 b6 b7 b8 rest1 _ ih =>
    intro m w st h
    rw [rxLoop_cont (iteration_block m w b1 b2 b3 b4 b5 b6 b7 b8 rest1)] at h
    obtain ⟨s, t, st1, hs, hw, hst⟩ := ih _ _ st h
    refine ⟨1 :: b1 :: b2 :: b3 :: b4 :: b5 :: b6 :: b7 :: b8 :: s, t, st1, by simp [hs], ?_,
      hst⟩
    rw [rxLoop_cont (iteration_block m w b1 b2 b3 b4 b5 b6 b7 b8 s)]
    exact hw
  | case4 rest hshort _ =>
    intro m w st h
    rw [rxLoop_unfold, iteration_soh_short m w rest hshort] at h
    simp at h
  | case5 b0 rest he hs ih =>
    intro m w st h
    rw [rxLoop_cont (iteration_noise m w b0 rest he hs)] at h
    obtain ⟨s, t, st1, hs1, hw, hst⟩ := ih m w st h
    refine ⟨b0 :: s, t, st1, by simp [hs1], ?_, hst⟩
    rw [rxLoop_cont (iteration_noise m w b0 s he hs)]
    exact hw

/-- C15 (an unopenable port is reported distinctly): when `Serial::open` returns false,
`main` returns 1, has written no byte (no opening `NAK`), has asked for no read result
and prints no message. And `main` returns 0 only if the port was opened and the stream
splits as `s`, 0x04, `t` such that after `s` the receiver was awaiting a control byte: the
0x04 was read at a control position, and `t` is what was left unread. -/
theorem unopenable_port (openOk : Bool) (stream : List Int) :
    main false stream
      = { exitCode := some 1, written := [], printed := none, unread := stream } ∧
    ((main openOk stream).exitCode = some 0 →
      openOk = true ∧
      ∃ (s t : List Int) (st1 : RxState), stream = s ++ 0x04 :: t ∧
        rxLoop ⟨[], [NAK], s⟩ = Outcome.waitControl st1 ∧
        (main openOk stream).unread = t ∧
        (main openOk stream).printed = some st1.nachricht) := by
  refine ⟨rfl, ?_⟩
  intro h
  cases openOk with
  | false => simp [main] at h
  | true =>
    refine ⟨rfl, ?_⟩
    obtain ⟨st, hst, hm⟩ := main_exit_zero stream h
    obtain ⟨s, t, st1, hs, hw, hst1⟩ := rxLoop_done_split stream [] [NAK] st hst
    refine ⟨s, t, st1, hs, hw, ?_, ?_⟩
    · rw [hm, hst1]
    · rw [hm, hst1]

theorem unopenable_port_witness :
    main false [0x41, 0x04, 0x42]
      = { exitCode := some 1, written := [], printed := none, unread := [0x41, 0x04, 0x42] } ∧
    (main true [0x41, 0x04, 0x42]).exitCode = some 0 ∧
    ∃ (s t : List Int) (st1 : RxState), [0x41, 0x04, 0x42] = s ++ 0x04 :: t ∧
      rxLoop ⟨[], [NAK], s⟩ = Outcome.waitControl st1 ∧
      (main true [0x41, 0x04, 0x42]).unread = t ∧
      (main true [0x41, 0x04, 0x42]).printed = some st1.nachricht :=
  ⟨(unopenable_port true [0x41, 0x04, 0x42]).1, by decide,
    ((unopenable_port true [0x41, 0x04, 0x42]).2 (by decide)).2⟩

/-! ## Block bodies -/

/-- C17 (block bodies are opaque to the classification of control bytes): after an `SOH` at
a control position the pass consumes exactly the next 8 read results, whatever their
values (also 0x01, 0x04 or a failed read), writes exactly one answer byte and goes on with
the ninth: it neither starts another block nor leaves the loop. Consequently the round
trip holds for every payload over the byte values 0..255 other than 0x03. -/
theorem block_body_unclassified (seq : Nat → Nat) (hseq : ∀ i, seq i < 256) (p : List Nat)
    (hp : ∀ b ∈ p, b < 256 ∧ b ≠ 0x03) :
    (∀ (m w : List Nat) (b1 b2 b3 b4 b5 b6 b7 b8 : Int) (rest : List Int),
      iteration ⟨m, w, 1 :: b1 :: b2 :: b3 :: b4 :: b5 :: b6 :: b7 :: b8 :: rest⟩
        = Step.cont ⟨m ++ delivered [1, b1, b2, b3, b4, b5, b6, b7, b8],
            w ++ [answer [1, b1, b2, b3, b4, b5, b6, b7, b8]], rest⟩) ∧
    main true (senderStream seq p)
      = { exitCode := some 0,
          written := [NAK] ++ List.replicate (chunks5 p).length ACK ++ [ACK],
          printed := some p, unread := [] } :=
  ⟨iteration_block, main_senderStream seq hseq p hp⟩

theorem block_body_unclassified_witness :
    senderStream (fun _ => 4) [0x04, 0x01, 0x00, 0xFF, 0x04, 0x01]
      = [0x01, 4, 251, 0x04, 0x01, 0x00, 0xFF, 0x04, 0x08,
         0x01, 4, 251, 0x01, 0x03, 0x03, 0x03, 0x03, 0x0D, 0x04] ∧
    main true (senderStream (fun _ => 4) [0x04, 0x01, 0x00, 0xFF, 0x04, 0x01])
      = { exitCode := some 0,
          written := [NAK] ++ List.replicate
            (chunks5 [0x04, 0x01, 0x00, 0xFF, 0x04, 0x01]).length ACK ++ [ACK],
          printed := some [0x04, 0x01, 0x00, 0xFF, 0x04, 0x01], unread := [] } :=
  ⟨by decide, (block_body_unclassified (fun _ => 4) (fun _ => (by decide : (4 : Nat) < 256))
    [0x04, 0x01, 0x00, 0xFF, 0x04, 0x01] (by decide)).2⟩

/-- A pass over a block sees the eight body results only through their conversion to
`unsigned char`. -/
theorem iteration_body_cast (m w : List Nat) (b1 b2 b3 b4 b5 b6 b7 b8 : Int)
    (rest : List Int) :
    iteration ⟨m, w, 1 :: b1 :: b2 :: b3 :: b4 :: b5 :: b6 :: b7 :: b8 :: rest⟩
      = iteration ⟨m, w, 1 :: (toUChar b1 : Int) :: (toUChar b2 : Int) :: (toUChar b3 : Int)
          :: (toUChar b4 : Int) :: (toUChar b5 : Int) :: (toUChar b6 : Int)
          :: (toUChar b7 : Int) :: (toUChar b8 : Int) :: rest⟩ := by
  rw [iteration_soh, iteration_soh]
  simp only [toUChar_of_lt (toUChar_lt _)]

/-- C18 (a read error inside a block body is taken as the data byte 0xFF): the conversion
`(unsigned char)(-1)` is 255 and a pass over a block treats its eight body results exactly
as it treats their conversions, so a failed read counts as the byte 0xFF. Hence the block
`SOH`, `n = 0`, a failed read at the complement position, any payload of bytes `d0..d4` and
its correct checksum is accepted: `ACK` is written and the stripped payload appended. -/
theorem read_error_taken_as_ff (m w : List Nat) (rest : List Int) (d0 d1 d2 d3 d4 : Nat)
    (h0 : d0 < 256) (h1 : d1 < 256) (h2 : d2 < 256) (h3 : d3 < 256) (h4 : d4 < 256) :
    toUChar (-1) = 255 ∧
    (∀ (b1 b2 b3 b4 b5 b6 b7 b8 : Int),
      iteration ⟨m, w, 1 :: b1 :: b2 :: b3 :: b4 :: b5 :: b6 :: b7 :: b8 :: rest⟩
        = iteration ⟨m, w, 1 :: (toUChar b1 : Int) :: (toUChar b2 : Int) :: (toUChar b3 : Int)
            :: (toUChar b4 : Int) :: (toUChar b5 : Int) :: (toUChar b6 : Int)
            :: (toUChar b7 : Int) :: (toUChar b8 : Int) :: rest⟩) ∧
    iteration ⟨m, w, [0x01, 0x00, -1, (d0 : Int), d1, d2, d3, d4,
        (((d0 + d1 + d2 + d3 + d4) % 256 : Nat) : Int)] ++ rest⟩
      = Step.cont ⟨m ++ [d0, d1, d2, d3, d4].filter (fun x => x ≠ 0x03), w ++ [ACK], rest⟩ := by
  refine ⟨by decide, fun b1 b2 b3 b4 b5 b6 b7 b8 =>
    iteration_body_cast m w b1 b2 b3 b4 b5 b6 b7 b8 rest, ?_⟩
  have hk : (d0 + d1 + d2 + d3 + d4) % 256 < 256 := Nat.mod_lt _ (by decide)
  have e0 : toUChar 0 = 0 := by decide
  have e1 : toUChar (-1) = 255 := by decide
  have e2 : toUChar (255 - ((0 : Nat) : Int)) = 255 := by decide
  simp only [List.cons_append, List.nil_append]
  rw [iteration_soh]
  simp only [toUChar_of_lt h0, toUChar_of_lt h1, toUChar_of_lt h2, toUChar_of_lt h3,
    toUChar_of_lt h4, toUChar_of_lt hk, e0, e1, e2]
  simp [ETX]

theorem read_error_taken_as_ff_witness :
    iteration ⟨[0x47], [NAK], [0x01, 0x00, -1, ((0x48 : Nat) : Int), (0x49 : Nat), (0x03 : Nat),
        (0x03 : Nat), (0x03 : Nat),
        (((0x48 + 0x49 + 0x03 + 0x03 + 0x03) % 256 : Nat) : Int)] ++ [0x04]⟩
      = Step.cont ⟨[0x47] ++ [0x48, 0x49, 0x03, 0x03, 0x03].filter (fun x => x ≠ 0x03),
          [NAK] ++ [ACK], [0x04]⟩ :=
  (read_error_taken_as_ff [0x47] [NAK] [0x04] 0x48 0x49 0x03 0x03 0x03 (by decide) (by decide)
    (by decide) (by decide) (by decide)).2.2

/-! ## A stray SOH -/

/-- A stray `SOH` can also complete a block that is accepted: here it takes the first
eight bytes of the valid block `01 FE 01 48 03 03 03 52 A3` and delivers two of them. -/
theorem stray_soh_may_deliver :
    main true [0x01, 0x01, 0xFE, 0x01, 0x48, 0x03, 0x03, 0x03, 0x52, 0xA3, 0x04]
      = { exitCode := some 0, written := [0x15, 0x06, 0x06], printed := some [0x01, 0x48],
          unread := [] } := by
  decide

/-- C19 (a rejected block still consumes 9 bytes): on the noise byte 0x01 followed by the
valid block `01 05 FA 48 49 03 03 03 9A` (stripped payload "HI") and `EOT`, the receiver
takes the noise `SOH` and the first 8 bytes of the valid block as one block, answers it
with `NAK`, appends nothing, passes over the remaining 0x9A and ends on the `EOT` with an
empty message. In general a pass that starts with `SOH` at a control position consumes
exactly 8 further read results and goes on with the next one, with `ACK` or with `NAK`. -/
theorem stray_soh_swallows_block :
    blockValid [0x01, 0x05, 0xFA, 0x48, 0x49, 0x03, 0x03, 0x03, 0x9A] = true ∧
    strippedPayload [0x01, 0x05, 0xFA, 0x48, 0x49, 0x03, 0x03, 0x03, 0x9A] = [0x48, 0x49] ∧
    iteration ⟨[], [NAK], [0x01, 0x01, 0x05, 0xFA, 0x48, 0x49, 0x03, 0x03, 0x03, 0x9A, 0x04]⟩
      = Step.cont ⟨[], [NAK, NAK], [0x9A, 0x04]⟩ ∧
    main true [0x01, 0x01, 0x05, 0xFA, 0x48, 0x49, 0x03, 0x03, 0x03, 0x9A, 0x04]
      = { exitCode := some 0, written := [0x15, 0x15, 0x06], printed := some [],
          unread := [] } ∧
    (∀ (m w : List Nat) (b1 b2 b3 b4 b5 b6 b7 b8 : Int) (rest : List Int),
      iteration ⟨m, w, 1 :: b1 :: b2 :: b3 :: b4 :: b5 :: b6 :: b7 :: b8 :: rest⟩
          = Step.cont ⟨m ++ delivered [1, b1, b2, b3, b4, b5, b6, b7, b8],
              w ++ [answer [1, b1, b2, b3, b4, b5, b6, b7, b8]], rest⟩ ∧
        (answer [1, b1, b2, b3, b4, b5, b6, b7, b8] = ACK ∨
          answer [1, b1, b2, b3, b4, b5, b6, b7, b8] = NAK)) := by
  refine ⟨by decide, by decide, by decide, by decide, ?_⟩
  intro m w b1 b2 b3 b4 b5 b6 b7 b8 rest
  refine ⟨iteration_block m w b1 b2 b3 b4 b5 b6 b7 b8 rest, ?_⟩
  unfold answer
  by_cases ha : accepted [1, b1, b2, b3, b4, b5, b6, b7, b8] = true
  · exact Or.inl (by simp [ha])
  · exact Or.inr (by simp [ha])

/-! ## Serial::readLine -/

theorem lineLimit_eq : lineLimit = 1048576 := by decide

theorem readLineLoop_line (rest : List Int) : ∀ (line : List Nat) (result : List Nat),
    (∀ b ∈ line, b < 256 ∧ b ≠ LF) → result.length + line.length ≤ lineLimit →
      readLineLoop (line.map Int.ofNat ++ (0x0A : Int) :: rest) result
        = some (result ++ line, rest) := by
  intro line
  induction line with
  | nil =>
    intro result _ _
    have h1 : ¬ ((0x0A : Int) < 0) := by decide
    have h2 : toUChar 0x0A = LF := by decide
    simp only [List.map_nil, List.nil_append, readLineLoop, h1, h2, if_false, if_true,
      List.append_nil]
  | cons b tl ih =>
    intro result hb hlen
    simp only [List.mem_cons, forall_eq_or_imp] at hb
    obtain ⟨⟨hb1, hb2⟩, htl⟩ := hb
    simp only [List.length_cons] at hlen
    have h1 : ¬ ((b : Int) < 0) := by omega
    have h2 : toUChar (b : Int) = b := toUChar_of_lt hb1
    have h3 : ¬ ((result ++ [b]).length > lineLimit) := by
      simp only [List.length_append, List.length_singleton]
      omega
    simp only [List.map_cons, List.cons_append, readLineLoop, Int.ofNat_eq_coe, h1, h2, hb2,
      h3, if_false]
    have e := ih (result ++ [b]) htl
      (by simp only [List.length_append, List.length_singleton]; omega)
    simpa [List.append_assoc] using e

/-- A line that does not end within `lineLimit + 1` bytes is cut there: the string is
returned without waiting for the linefeed and what follows stays unread. -/
theorem readLineLoop_cut (rest : List Int) : ∀ (line : List Nat) (result : List Nat),
    (∀ b ∈ line, b < 256 ∧ b ≠ LF) → result.length ≤ lineLimit →
      result.length + line.length = lineLimit + 1 →
      readLineLoop (line.map Int.ofNat ++ rest) result = some (result ++ line, rest) := by
  intro line
  induction line with
  | nil =>
    intro result _ h1 h2
    simp only [List.length_nil] at h2
    omega
  | cons b tl ih =>
    intro result hb hres hlen
    simp only [List.mem_cons, forall_eq_or_imp] at hb
    obtain ⟨⟨hb1, hb2⟩, htl⟩ := hb
    simp only [List.length_cons] at hlen
    have h1 : ¬ ((b : Int) < 0) := by omega
    have h2 : toUChar (b : Int) = b := toUChar_of_lt hb1
    by_cases h3 : (result ++ [b]).length > lineLimit
    · have htl0 : tl = [] := by
        simp only [List.length_append, List.length_singleton] at h3
        exact List.length_eq_zero.mp (by omega)
      subst htl0
      simp only [List.map_cons, List.map_nil, List.cons_append, List.nil_append, readLineLoop,
        Int.ofNat_eq_coe, h1, h2, hb2, h3, if_false, if_true]
      rfl
    · simp only [List.map_cons, List.cons_append, readLineLoop, Int.ofNat_eq_coe, h1, h2, hb2,
        h3, if_false]
      have h4 : (result ++ [b]).length ≤ lineLimit := by omega
      have e := ih (result ++ [b]) htl h4
        (by simp only [List.length_append, List.length_singleton]; omega)
      simpa [List.append_assoc] using e

theorem readLine_open (stream : List Int) :
    Serial.readLine true stream = readLineLoop stream [] := rfl

/-- C16, as far as the code goes (the line is returned without its terminator): on an open
port, when the successful reads deliver the bytes `line`, none of them 0x0A and at most
1048576 (`1 << 20`) of them, then 0x0A and then anything, `readLine` reads up to and
including that 0x0A and returns exactly `line`. -/
theorem readLine_returns_line (line : List Nat) (rest : List Int)
    (hb : ∀ b ∈ line, b < 256 ∧ b ≠ 0x0A) (hlen : line.length ≤ 1048576) :
    Serial.readLine true (line.map Int.ofNat ++ (0x0A : Int) :: rest) = some (line, rest) := by
  have h := readLineLoop_line rest line [] hb
    (by rw [lineLimit_eq]; simpa using hlen)
  simpa [Serial.readLine] using h

theorem readLine_returns_line_witness :
    Serial.readLine true ([0x48, 0x49].map Int.ofNat ++ (0x0A : Int) :: [0x4A, 0x0A])
      = some ([0x48, 0x49], [0x4A, 0x0A]) :=
  readLine_returns_line [0x48, 0x49] [0x4A, 0x0A] (by decide) (by decide)

theorem returned_ne_longer (l : List Nat) (a : Nat) (r : List Int) :
    (some (l, r)).map Prod.fst ≠ some (l ++ [a]) := by
  intro heq
  have h2 := congrArg (fun o => o.map List.length) heq
  simp at h2

/-- C16 as stated fails for a long line: when 1048578 bytes 0x41 arrive before the first
0x0A, `readLine` returns after 1048577 of them, without the last one and without waiting
for the linefeed, which stays unread together with that byte. -/
theorem readLine_long_line :
    lineLimit + 1 = 1048577 ∧
    Serial.readLine true
        ((List.replicate (lineLimit + 1) 0x41).map Int.ofNat ++ [0x41, 0x0A])
      = some (List.replicate (lineLimit + 1) 0x41, [0x41, 0x0A]) ∧
    (Serial.readLine true
        ((List.replicate (lineLimit + 1) 0x41).map Int.ofNat ++ [0x41, 0x0A])).map Prod.fst
      ≠ some (List.replicate (lineLimit + 1) 0x41 ++ [0x41]) := by
  have hb : ∀ b ∈ List.replicate (lineLimit + 1) 0x41, b < 256 ∧ b ≠ LF := by
    intro b hmem
    rw [List.eq_of_mem_replicate hmem]
    decide
  have h := readLineLoop_cut [0x41, 0x0A] (List.replicate (lineLimit + 1) 0x41) [] hb
    (Nat.zero_le _) (by rw [List.length_replicate, List.length_nil, Nat.zero_add])
  have hr : Serial.readLine true
      ((List.replicate (lineLimit + 1) 0x41).map Int.ofNat ++ [0x41, 0x0A])
      = some (List.replicate (lineLimit + 1) 0x41, [0x41, 0x0A]) := by
    rw [List.nil_append] at h
    rw [readLine_open]
    exact h
  refine ⟨by decide, hr, ?_⟩
  rw [hr]
  exact returned_ne_longer _ _ _

end XModemRx
